import Mathlib

/-!
Verification of the picture_viewer repository's core subsystems against its
natural-language specification.

The development shallowly embeds, in Lean:
  * the thumbnail tier selection (`selectThumbnailSize` from the image grid
    component, `quantizeWidth` from the `/api/server-images-thumb/` route in
    `server.cjs`),
  * the thumbnail cache metadata store and eviction sweep
    (`cleanupCacheIfNeeded` in `server.cjs`),
  * the cache-metadata / server-inventory persistence functions
    (`saveCacheMetadata`, `persistServerCache` in `server.cjs`) as file-system
    operation traces,
  * the thumbnail HTTP route's generation path as a small interleaving
    transition system (one transition per `await` point of the handler),
  * the scan worker (`scan.worker.ts`): the local walker `scanLocalSource`,
    the remote walker `scanRemoteSource` and the reconciliation driver
    (`self.onmessage`), together with the changeset application performed by
    the UI collaborator (`bulkDelete` / `bulkPut` / `bulkAdd`),
  * the server-side folder scan's source-id assignment (`scanServerFolders`).

JavaScript `Map`s and plain objects used as dictionaries are embedded as
association lists with JS semantics: `set` replaces the value in place at the
first occurrence of the key (keeping the original insertion position) and
appends otherwise; `get` returns the first (and, once built by `set`, only)
binding.  The worker's composite string keys `` `${sourceId}|${ident}` `` are
embedded as pairs `(sourceId, ident)`; the string encoding is injective
because the decimal rendering of a number contains no `|`, so the pair view
is faithful.
-/

namespace PictureViewer

/-! ## JS map embedding -/

/-- JS `Map.set` / `obj[k] = v`: replace in place at the first binding of the
key, else append. -/
def jsSet {K V : Type} [DecidableEq K] : List (K × V) → K → V → List (K × V)
  | [], k, v => [(k, v)]
  | (k0, v0) :: rest, k, v =>
    if k0 = k then (k, v) :: rest else (k0, v0) :: jsSet rest k v

/-- JS `Map.get` / `obj[k]`: first binding wins (maps built with `jsSet` have
at most one binding per key). -/
def jsGet {K V : Type} [DecidableEq K] : List (K × V) → K → Option V
  | [], _ => none
  | (k0, v0) :: rest, k => if k0 = k then some v0 else jsGet rest k

/-- JS `delete obj[k]` (also used for removing several keys at once). -/
def jsDeleteAll {K V : Type} [DecidableEq K] (m : List (K × V)) (ks : List K) :
    List (K × V) :=
  m.filter (fun e => decide (e.1 ∉ ks))

theorem jsGet_eq_none {K V : Type} [DecidableEq K] (m : List (K × V)) (k : K) :
    jsGet m k = none ↔ ∀ e ∈ m, e.1 ≠ k := by
  induction m with
  | nil => simp [jsGet]
  | cons e rest ih =>
    obtain ⟨k0, v0⟩ := e
    by_cases h : k0 = k <;> simp [jsGet, h, ih]

theorem jsGet_mem {K V : Type} [DecidableEq K] {m : List (K × V)} {k : K}
    {v : V} (h : jsGet m k = some v) : (k, v) ∈ m := by
  induction m with
  | nil => simp [jsGet] at h
  | cons e rest ih =>
    obtain ⟨k0, v0⟩ := e
    by_cases hk : k0 = k
    · subst hk
      simp [jsGet] at h
      simp [h]
    · simp [jsGet, hk] at h
      exact List.mem_cons_of_mem _ (ih h)

theorem jsGet_eq_some_of_nodup {K V : Type} [DecidableEq K]
    {m : List (K × V)} {k : K} {v : V} (hn : (m.map Prod.fst).Nodup)
    (hmem : (k, v) ∈ m) : jsGet m k = some v := by
  induction m with
  | nil => simp at hmem
  | cons e rest ih =>
    obtain ⟨k0, v0⟩ := e
    simp only [List.map_cons, List.nodup_cons] at hn
    rcases List.mem_cons.mp hmem with h | h
    · obtain ⟨h1, h2⟩ := Prod.mk.injEq .. ▸ h
      cases h
      simp [jsGet]
    · have hne : k0 ≠ k := by
        intro hkk
        subst hkk
        exact hn.1 (List.mem_map.mpr ⟨(k0, v), h, rfl⟩)
      simp [jsGet, hne]
      exact ih hn.2 h

/-! ## Data model (`src/db/db.ts`)

`Picture`: `path` is a `FileSystemFileHandle` for local files (embedded as
`none`) or a string URL for remote files (embedded as `some url`).  The
optional EXIF block attached by the worker is embedded as an opaque optional
payload. -/

structure Picture where
  id : Nat
  sourceId : Nat
  name : String
  pathUrl : Option String
  modified : Int
  size : Option Nat
  width : Option Nat
  height : Option Nat
  exifRaw : Option String
deriving DecidableEq, Repr

/-- `Omit<Picture, 'id'>`: the payload of an `adds` entry. -/
structure PictureData where
  sourceId : Nat
  name : String
  pathUrl : Option String
  modified : Int
  size : Option Nat
  width : Option Nat
  height : Option Nat
  exifRaw : Option String
deriving DecidableEq, Repr

def PictureData.withId (d : PictureData) (id : Nat) : Picture :=
  ⟨id, d.sourceId, d.name, d.pathUrl, d.modified, d.size, d.width, d.height,
    d.exifRaw⟩

/-- The worker's composite map key `` `${sourceId}|${ident}` `` viewed as a
pair. -/
structure Key where
  sourceId : Nat
  ident : String
deriving DecidableEq, Repr

/-- Key of an existing record, from `self.onmessage`:
`typeof pic.path === 'string' ? pic.path : pic.name`. -/
def keyOfPic (p : Picture) : Key :=
  ⟨p.sourceId, p.pathUrl.getD p.name⟩

/-! ## Tier selection

Client side (`ImageGrid` component): `selectThumbnailSize`.  `Math.round`
rounds half toward positive infinity, matching Mathlib's `round`.
Server side (`server.cjs`): the `/api/server-images-thumb/` route quantizes
the `width` query parameter with
`THUMBNAIL_SIZES_ARRAY.find(size => size >= requestedWidth) || THUMBNAIL_MAX_WIDTH`. -/

def THUMBNAIL_SIZES_ARRAY : List Nat := [400, 800, 1600]

def THUMBNAIL_MAX_WIDTH : Nat := 1600

/-- `server.cjs`: quantize a validated requested width to a preset tier. -/
def quantizeWidth (requestedWidth : Nat) : Nat :=
  (THUMBNAIL_SIZES_ARRAY.find? (fun size => requestedWidth ≤ size)).getD
    THUMBNAIL_MAX_WIDTH

/-- `ImageGrid`: pick the tier from the container width and the device pixel
ratio. -/
def selectThumbnailSize (containerWidth : ℚ) (dpr : ℚ) : Nat :=
  let requiredWidth : ℤ := round (containerWidth * max 1 dpr)
  if requiredWidth ≤ 400 then 400
  else if requiredWidth ≤ 800 then 800
  else 1600

/-- Modelled from the spec's words (for comparison with the code):
`tier(requestedWidth) = smallest of {T1, T2, T3} ≥ requestedWidth · devicePixelRatio, else T3`,
evaluated at the effective width. -/
def specTier (effectiveWidth : ℚ) : Nat :=
  (THUMBNAIL_SIZES_ARRAY.find?
      (fun (size : Nat) => decide (effectiveWidth ≤ (size : ℚ)))).getD
    THUMBNAIL_MAX_WIDTH

/-! ## Server-side folder scan: source-id assignment (`scanServerFolders`) -/

def SERVER_SOURCE_ID_OFFSET : Nat := 10000

/-- Environment-provided (or auto-discovered) server source entry; empty
strings embed JS falsy `name` / `path` values. -/
structure ServerSrcIn where
  name : String
  path : String
deriving DecidableEq, Repr

structure ServerSourceDto where
  id : Nat
  name : String
deriving DecidableEq, Repr

/-- The source-construction fold of `scanServerFolders`:
entries with falsy `name` or `path` are skipped, every accepted source gets
`id = SERVER_SOURCE_ID_OFFSET + nextSources.length`. -/
def scanServerSourcesGo (acc : List ServerSourceDto) :
    List ServerSrcIn → List ServerSourceDto
  | [] => acc
  | s :: rest =>
    if s.name = "" ∨ s.path = "" then scanServerSourcesGo acc rest
    else
      scanServerSourcesGo
        (acc ++ [⟨SERVER_SOURCE_ID_OFFSET + acc.length, s.name⟩]) rest

def scanServerSources (srcs : List ServerSrcIn) : List ServerSourceDto :=
  scanServerSourcesGo [] srcs

/-! ## Persistence traces (`saveCacheMetadata`, `persistServerCache`)

Both functions are embedded as the sequence of file-system operations they
perform on the success path. -/

inductive FsOp where
  | write (path : String)
  | rename (src : String) (dst : String)
deriving DecidableEq, Repr

def CACHE_METADATA_FILE : String := ".cache_metadata.json"

def CACHE_FILE_PATH : String := "server-cache.json"

/-- `saveCacheMetadata` writes the serialized metadata directly to the
metadata file. -/
def saveCacheMetadataTrace : List FsOp :=
  [FsOp.write CACHE_METADATA_FILE]

/-- `persistServerCache` writes to `<file>.tmp` and then renames it over the
store. -/
def persistServerCacheTrace : List FsOp :=
  [FsOp.write (CACHE_FILE_PATH ++ ".tmp"),
   FsOp.rename (CACHE_FILE_PATH ++ ".tmp") CACHE_FILE_PATH]

/-- Modelled from the spec's words: a persistence trace replaces `target`
atomically when the target path is never written directly and the final
operation renames some temporary file onto the target. -/
def AtomicPersist (trace : List FsOp) (target : String) : Prop :=
  (∀ p, FsOp.write p ∈ trace → p ≠ target) ∧
    ∃ tmp, trace.getLast? = some (FsOp.rename tmp target)

/-! ## Cache metadata store and eviction sweep (`server.cjs`)

`cacheMetadata.entries` is a JS object mapping cache filename to entry; the
on-disk cache directory is embedded as the association list produced by
`readdir` + `stat` (filename, byte size).  `unlink` succeeds exactly when the
file currently has a binding on disk; on `ENOENT` the `catch` skips the
metadata delete, so the entry survives. -/

structure CacheEntry where
  createdAt : Int
  modifiedAt : Int
  size : Nat
  accessCount : Nat
deriving DecidableEq, Repr

def CACHE_TTL_MS : Int := 7 * 24 * 60 * 60 * 1000

def MAX_CACHE_SIZE_BYTES : Nat := 500 * 1024 * 1024

/-- `MAX_CACHE_SIZE_BYTES * 0.8`; exact in binary floating point for this
value, so the JS computation yields exactly this natural number. -/
def targetSize : Nat := MAX_CACHE_SIZE_BYTES * 4 / 5

/-- The `readdir` loop skips the metadata file itself. -/
def diskFiles (disk : List (String × Nat)) : List (String × Nat) :=
  disk.filter (fun e => e.1 ≠ CACHE_METADATA_FILE)

/-- The sort comparator of `cleanupCacheIfNeeded`: ascending by access count,
then by last-access time.  V8's `Array.prototype.sort` is stable, as is
`List.mergeSort`, so the two agree on this total preorder. -/
def entryLE (a b : String × CacheEntry) : Bool :=
  decide (a.2.accessCount < b.2.accessCount ∨
    (a.2.accessCount = b.2.accessCount ∧ a.2.modifiedAt ≤ b.2.modifiedAt))

/-- The deletion loop of the byte-budget phase: walk the sorted entries,
breaking as soon as `freedSize >= totalSize - targetSize`; each deletion
frees `fileStats[filename]` bytes.  Returns the deleted entries (in deletion
order) and the final `freedSize`. -/
def budgetLoop (fileStats : List (String × Nat)) (need : Nat) :
    List (String × CacheEntry) → Nat → List (String × CacheEntry) × Nat
  | [], freed => ([], freed)
  | e :: rest, freed =>
    if need ≤ freed then ([], freed)
    else
      let sz := (jsGet fileStats e.1).getD 0
      let r := budgetLoop fileStats need rest (freed + sz)
      (e :: r.1, r.2)

structure SweepResult where
  meta : List (String × CacheEntry)
  disk : List (String × Nat)
  deletedBudget : List (String × CacheEntry)
  removedExpired : List String
  persistOps : List FsOp
deriving Repr

/-- The filtered, stably sorted entry list of the byte-budget phase (JS
truthiness makes it consider only entries whose stat size is present and
non-zero). -/
def sortedEntries (fileStats : List (String × Nat))
    (meta : List (String × CacheEntry)) : List (String × CacheEntry) :=
  (meta.filter (fun e => (jsGet fileStats e.1).getD 0 ≠ 0)).mergeSort entryLE

structure Phase1Out where
  meta : List (String × CacheEntry)
  disk : List (String × Nat)
  deleted : List (String × CacheEntry)
  ops : List FsOp
deriving Repr

/-- Byte-budget phase of `cleanupCacheIfNeeded` (runs, and persists, only
when the total stat size exceeds the budget). -/
def budgetPhase (disk : List (String × Nat))
    (meta : List (String × CacheEntry)) : Phase1Out :=
  let fileStats := diskFiles disk
  let totalSize := (fileStats.map (fun e => e.2)).sum
  if MAX_CACHE_SIZE_BYTES < totalSize then
    let deleted := (budgetLoop fileStats (totalSize - targetSize)
      (sortedEntries fileStats meta) 0).1
    let names := deleted.map (fun e => e.1)
    ⟨jsDeleteAll meta names, jsDeleteAll disk names, deleted,
     saveCacheMetadataTrace⟩
  else ⟨meta, disk, [], []⟩

structure Phase2Out where
  meta : List (String × CacheEntry)
  disk : List (String × Nat)
  removed : List String
  ops : List FsOp
deriving Repr

/-- TTL phase of `cleanupCacheIfNeeded`: every entry older than the TTL is
unlinked and dropped; an entry whose backing file is missing survives, but
the phase still persists whenever it found any expired entry. -/
def ttlPhase (now : Int) (disk : List (String × Nat))
    (meta : List (String × CacheEntry)) : Phase2Out :=
  let expired := meta.filter (fun e => CACHE_TTL_MS < now - e.2.modifiedAt)
  let removed :=
    (expired.filter (fun e => (jsGet disk e.1).isSome)).map (fun e => e.1)
  if expired.isEmpty then ⟨meta, disk, [], []⟩
  else
    ⟨jsDeleteAll meta removed, jsDeleteAll disk removed, removed,
     saveCacheMetadataTrace⟩

/-- `cleanupCacheIfNeeded`: byte-budget phase, then TTL phase. -/
def cleanupCacheIfNeeded (now : Int) (disk : List (String × Nat))
    (meta : List (String × CacheEntry)) : SweepResult :=
  let p1 := budgetPhase disk meta
  let p2 := ttlPhase now p1.disk p1.meta
  ⟨p2.meta, p2.disk, p1.deleted, p2.removed, p1.ops ++ p2.ops⟩

/-! ## Thumbnail route: generation interleaving (`/api/server-images-thumb/`)

The handler for a fixed, valid, initially-uncached cache key is embedded as a
transition system with one transition per `await` boundary: the cache-access
check, the decode/resize work (counted in `gens`), and the cache-file write.
Several concurrent requests for the same key are the list `pcs`; a schedule
is the order in which the event loop resumes them.  There is no in-flight
registry in the handler, so nothing in the state guards `generating`. -/

inductive ReqPc where
  | checking
  | generating
  | writing
  | done
deriving DecidableEq, Repr

structure ThumbState where
  cached : Bool
  gens : Nat
  pcs : List ReqPc
deriving DecidableEq, Repr

def thumbStep (s : ThumbState) (i : Nat) : ThumbState :=
  match s.pcs.get? i with
  | none => s
  | some ReqPc.checking =>
    if s.cached then { s with pcs := s.pcs.set i ReqPc.done }
    else { s with pcs := s.pcs.set i ReqPc.generating }
  | some ReqPc.generating =>
    { s with gens := s.gens + 1, pcs := s.pcs.set i ReqPc.writing }
  | some ReqPc.writing =>
    { s with cached := true, pcs := s.pcs.set i ReqPc.done }
  | some ReqPc.done => s

def thumbInit (n : Nat) : ThumbState :=
  ⟨false, 0, List.replicate n ReqPc.checking⟩

def thumbRun (s : ThumbState) (sched : List Nat) : ThumbState :=
  sched.foldl thumbStep s

/-! ## Scan worker (`scan.worker.ts`)

The walkers consume their observations of the outside world as explicit
inputs: the local walker gets the enumerated file handles (name, lastModified,
size, decoded dimensions, best-effort EXIF result), the remote walker the
sequence of page outcomes with the dot-path-extracted fields already applied
(the extraction operates on arbitrary JSON supplied by the network).  Date
parsing and URL resolution are browser primitives and appear as parameters.

`slowIdx` instruments the local walker with the indices of the files that took
the slow path (`getImageDimensions` + EXIF parse); `progress` collects the
values of the posted progress reports, in order. -/

structure FileInfo where
  name : String
  lastModified : Int
  size : Nat
  width : Nat
  height : Nat
  exifRaw : Option String
deriving DecidableEq, Repr

structure WalkResult where
  adds : List PictureData
  updates : List Picture
  seenKeys : List Key
  slowIdx : List Nat
  progress : List ℚ
deriving DecidableEq, Repr

/-- The fast-path fingerprint test of `scanLocalSource`:
`existing && existing.modified === file.lastModified && existing.size === file.size`. -/
def fingerprintOk (existing : Option Picture) (f : FileInfo) : Bool :=
  match existing with
  | some e => decide (e.modified = f.lastModified ∧ e.size = some f.size)
  | none => false

/-- The picture payload built on the slow path for a local file. -/
def localData (sourceId : Nat) (f : FileInfo) : PictureData :=
  ⟨sourceId, f.name, none, f.lastModified, some f.size, some f.width,
    some f.height, f.exifRaw⟩

/-- The per-file loop of `scanLocalSource`; `i` is the running
`fileHandles.entries()` index and `total` is `fileHandles.length`. -/
def scanLocalGo (sourceId total : Nat) (m : List (Key × Picture)) (i : Nat) :
    List FileInfo → WalkResult
  | [] => ⟨[], [], [], [], []⟩
  | f :: rest =>
    let r := scanLocalGo sourceId total m (i + 1) rest
    let key : Key := ⟨sourceId, f.name⟩
    let existing := jsGet m key
    let prog : List ℚ :=
      if i % 20 = 0 then [(i : ℚ) / (total : ℚ) * 100] else []
    if fingerprintOk existing f then
      ⟨r.adds, r.updates, key :: r.seenKeys, r.slowIdx, prog ++ r.progress⟩
    else
      match existing with
      | some e =>
        ⟨r.adds, (localData sourceId f).withId e.id :: r.updates,
          key :: r.seenKeys, i :: r.slowIdx, prog ++ r.progress⟩
      | none =>
        ⟨localData sourceId f :: r.adds, r.updates, key :: r.seenKeys,
          i :: r.slowIdx, prog ++ r.progress⟩

def scanLocalSource (sourceId : Nat) (files : List FileInfo)
    (m : List (Key × Picture)) : WalkResult :=
  scanLocalGo sourceId files.length m 0 files

/-! ### Remote walker -/

/-- One item of a page after the configured dot-path field mapping; `""`
embeds a falsy (missing/empty) extracted value, and `modified` is the parsed
timestamp when the mapping is configured and yields a truthy string. -/
structure RemoteItem where
  url : String
  name : String
  modified : Option Int
deriving DecidableEq, Repr

/-- One page attempt: an HTTP/parse failure, or the extracted item array (a
non-array response path behaves exactly like an empty array: the crawl
stops). -/
inductive PageResult where
  | fail
  | ok (items : List RemoteItem)
deriving DecidableEq, Repr

structure RemoteCfg where
  maxImages : Option Nat
  baseURL : Option String
deriving DecidableEq, Repr

structure RemoteState where
  adds : List PictureData
  updates : List Picture
  seenKeys : List Key
  progress : List ℚ
  stopped : Bool
deriving DecidableEq, Repr

/-- `maxImages && seenKeys.size >= maxImages` (`0` is falsy). -/
def capReached (maxImages : Option Nat) (seenCount : Nat) : Bool :=
  match maxImages with
  | none => false
  | some mx => decide (mx ≠ 0 ∧ mx ≤ seenCount)

/-- `baseURL && !imageUrl.startsWith('http')` (`""` is falsy);
`resolveUrl` stands for `new URL(imageUrl, baseURL).href`. -/
def resolveItemUrl (baseURL : Option String)
    (resolveUrl : String → String → String) (url : String) : String :=
  match baseURL with
  | some b => if b ≠ "" ∧ ¬ url.startsWith "http" then resolveUrl b url else url
  | none => url

/-- The per-item body of the remote page loop. -/
def remoteItemStep (sourceId : Nat) (cfg : RemoteCfg)
    (resolveUrl : String → String → String) (now : Int)
    (m : List (Key × Picture)) (st : RemoteState) (it : RemoteItem) :
    RemoteState :=
  if st.stopped then st
  else if capReached cfg.maxImages st.seenKeys.length then
    { st with stopped := true }
  else if it.url = "" ∨ it.name = "" then st
  else
    let url := resolveItemUrl cfg.baseURL resolveUrl it.url
    let key : Key := ⟨sourceId, url⟩
    if key ∈ st.seenKeys then st
    else
      let seen := st.seenKeys ++ [key]
      let modified := it.modified.getD now
      match jsGet m key with
      | some e =>
        if e.modified = modified then { st with seenKeys := seen }
        else
          let upd : Picture :=
            { e with name := it.name, pathUrl := some url, modified := modified }
          { st with seenKeys := seen, updates := st.updates ++ [upd] }
      | none =>
        { st with
          seenKeys := seen,
          adds := st.adds ++
            [⟨sourceId, it.name, some url, modified, none, none, none, none⟩] }

/-- The `while (hasMore)` page loop; `pageNo` starts at 1 and each attempt
first posts `progress: (page % 10) * 10`.  Past the supplied page list the
server is taken to answer an empty page, which stops the crawl after one more
attempt. -/
def scanRemotePages (sourceId : Nat) (cfg : RemoteCfg)
    (resolveUrl : String → String → String) (now : Int)
    (m : List (Key × Picture)) (pageNo : Nat) (st : RemoteState) :
    List PageResult → RemoteState
  | [] =>
    { st with progress := st.progress ++ [((pageNo % 10 * 10 : Nat) : ℚ)] }
  | pr :: rest =>
    let st1 :=
      { st with progress := st.progress ++ [((pageNo % 10 * 10 : Nat) : ℚ)] }
    match pr with
    | PageResult.fail => st1
    | PageResult.ok items =>
      if items.isEmpty then st1
      else
        let st2 := items.foldl (remoteItemStep sourceId cfg resolveUrl now m) st1
        if st2.stopped then st2
        else scanRemotePages sourceId cfg resolveUrl now m (pageNo + 1) st2 rest

def scanRemoteSource (sourceId : Nat) (cfg : RemoteCfg)
    (resolveUrl : String → String → String) (now : Int)
    (pages : List PageResult) (m : List (Key × Picture)) : WalkResult :=
  let st := scanRemotePages sourceId cfg resolveUrl now m 1
    ⟨[], [], [], [], false⟩ pages
  ⟨st.adds, st.updates, st.seenKeys, [], st.progress⟩

/-! ### Reconciliation driver (`self.onmessage`) -/

/-- A data source together with the walker observation it would produce. -/
inductive SourceKind where
  | localFolder (files : List FileInfo)
  | remoteApi (cfg : RemoteCfg) (pages : List PageResult)
deriving Repr

structure SourceIn where
  id : Nat
  name : String
  kind : SourceKind
deriving Repr

/-- One step of the map-building loop: records with falsy `sourceId` are
skipped; each record goes into the global map and into its source's
partition. -/
def buildStep (acc : List (Key × Picture) × List (Nat × List (Key × Picture)))
    (pic : Picture) :
    List (Key × Picture) × List (Nat × List (Key × Picture)) :=
  if pic.sourceId = 0 then acc
  else
    let key := keyOfPic pic
    let sub := (jsGet acc.2 pic.sourceId).getD []
    (jsSet acc.1 key pic, jsSet acc.2 pic.sourceId (jsSet sub key pic))

def buildMaps (pics : List Picture) :
    List (Key × Picture) × List (Nat × List (Key × Picture)) :=
  pics.foldl buildStep ([], [])

structure RecResult where
  adds : List PictureData
  updates : List Picture
  deletes : List Nat
  progress : List ℚ
deriving Repr

def walkOf (resolveUrl : String → String → String) (now : Int)
    (m : List (Key × Picture)) (s : SourceIn) : WalkResult :=
  match s.kind with
  | SourceKind.localFolder files => scanLocalSource s.id files m
  | SourceKind.remoteApi cfg pages =>
    scanRemoteSource s.id cfg resolveUrl now pages m

/-- Deletion candidates of one in-scope source: entries of its partition whose
key was not seen. -/
def sourceDeletes (bySource : List (Nat × List (Key × Picture)))
    (sourceId : Nat) (seen : List Key) : List Nat :=
  (((jsGet bySource sourceId).getD []).filter
    (fun e => decide (e.1 ∉ seen))).map (fun e => e.2.id)

/-- The per-source body of the scan loop of `self.onmessage`. -/
def reconcileStep (resolveUrl : String → String → String) (now : Int)
    (maps : List (Key × Picture) × List (Nat × List (Key × Picture)))
    (sourceIdsToScan : List Nat) (acc : RecResult) (s : SourceIn) :
    RecResult :=
  if s.id = 0 then acc
  else
    let results := walkOf resolveUrl now maps.1 s
    let dels :=
      if s.id ∈ sourceIdsToScan then
        sourceDeletes maps.2 s.id results.seenKeys
      else []
    ⟨acc.adds ++ results.adds, acc.updates ++ results.updates,
      acc.deletes ++ dels, acc.progress ++ results.progress⟩

/-- The body of `self.onmessage` for a scan command. -/
def reconcile (resolveUrl : String → String → String) (now : Int)
    (sources : List SourceIn) (existingPictures : List Picture)
    (sourceIdsToScan : List Nat) : RecResult :=
  let maps := buildMaps existingPictures
  let r := sources.foldl
    (reconcileStep resolveUrl now maps sourceIdsToScan) ⟨[], [], [], [0]⟩
  { r with progress := r.progress ++ [100] }

/-! ### Changeset application (UI collaborator, `App.tsx`)

`bulkDelete(deletes)`, then `bulkPut(updates)` (replace by primary key), then
`bulkAdd(adds)` (assign fresh auto-increment ids, supplied here as
`freshIds`). -/

def applyChangeset (inventory : List Picture) (r : RecResult)
    (freshIds : List Nat) : List Picture :=
  let afterDelete := inventory.filter (fun p => decide (p.id ∉ r.deletes))
  let afterUpdate := afterDelete.map
    (fun p =>
      match r.updates.find? (fun u => u.id = p.id) with
      | some u => u
      | none => p)
  afterUpdate ++ List.zipWith PictureData.withId r.adds freshIds

/-! ## Generic lemmas about the JS map embedding -/

theorem jsGet_jsSet {K V : Type} [DecidableEq K] (m : List (K × V)) (k k' : K)
    (v : V) :
    jsGet (jsSet m k v) k' = if k' = k then some v else jsGet m k' := by
  induction m with
  | nil =>
    rcases eq_or_ne k' k with h | h
    · subst h; simp [jsSet, jsGet]
    · simp [jsSet, jsGet, h, Ne.symm h]
  | cons e rest ih =>
    obtain ⟨k0, v0⟩ := e
    rcases eq_or_ne k0 k with h0 | h0
    · subst h0
      rcases eq_or_ne k' k0 with h | h
      · subst h; simp [jsSet, jsGet]
      · simp [jsSet, jsGet, h, Ne.symm h]
    · rcases eq_or_ne k' k0 with h | h
      · subst h
        simp [jsSet, jsGet, h0, Ne.symm h0]
      · simp [jsSet, jsGet, h0, Ne.symm h, ih]

theorem mem_jsSet {K V : Type} [DecidableEq K] {m : List (K × V)} {k : K}
    {v : V} {e : K × V} (h : e ∈ jsSet m k v) : e = (k, v) ∨ e ∈ m := by
  induction m with
  | nil => simpa [jsSet] using h
  | cons e0 rest ih =>
    obtain ⟨k0, v0⟩ := e0
    by_cases h0 : k0 = k
    · subst h0
      rcases List.mem_cons.mp (by simpa [jsSet] using h) with h1 | h1
      · exact Or.inl h1
      · exact Or.inr (List.mem_cons_of_mem _ h1)
    · rcases List.mem_cons.mp (by simpa [jsSet, h0] using h) with h1 | h1
      · exact Or.inr (by simp [h1])
      · rcases ih h1 with h2 | h2
        · exact Or.inl h2
        · exact Or.inr (List.mem_cons_of_mem _ h2)

/-- When the key is unbound, JS `set` appends. -/
theorem jsSet_eq_append {K V : Type} [DecidableEq K] {m : List (K × V)}
    {k : K} (v : V) (h : jsGet m k = none) : jsSet m k v = m ++ [(k, v)] := by
  induction m with
  | nil => simp [jsSet]
  | cons e rest ih =>
    obtain ⟨k0, v0⟩ := e
    by_cases h0 : k0 = k
    · simp [jsGet, h0] at h
    · simp [jsGet, h0] at h
      simp [jsSet, h0, ih h]

/-- `jsGet` through a filter whose predicate only looks at the key. -/
theorem jsGet_filter_key {K V : Type} [DecidableEq K] (m : List (K × V))
    (p : K → Bool) (k : K) :
    jsGet (m.filter (fun e => p e.1)) k = if p k then jsGet m k else none := by
  induction m with
  | nil => simp [jsGet]
  | cons e rest ih =>
    obtain ⟨k0, v0⟩ := e
    by_cases h0 : k0 = k
    · subst h0
      by_cases hp : p k0 <;> simp [jsGet, hp, List.filter_cons, ih]
    · by_cases hp : p k0 <;> simp [jsGet, hp, h0, List.filter_cons, ih]

/-- A key absent from a map is absent from any of its filters. -/
theorem jsGet_filter_of_none {K V : Type} [DecidableEq K]
    {m : List (K × V)} {k : K} (h : jsGet m k = none) (p : K × V → Bool) :
    jsGet (m.filter p) k = none := by
  rw [jsGet_eq_none] at h ⊢
  intro e he
  exact h e (List.mem_of_mem_filter he)

theorem jsGet_jsDeleteAll {K V : Type} [DecidableEq K] (m : List (K × V))
    (ks : List K) (k : K) :
    jsGet (jsDeleteAll m ks) k = if k ∈ ks then none else jsGet m k := by
  induction m with
  | nil => simp [jsDeleteAll, jsGet]
  | cons e rest ih =>
    obtain ⟨k0, v0⟩ := e
    by_cases hk : k0 ∈ ks
    · have hstep : jsDeleteAll ((k0, v0) :: rest) ks = jsDeleteAll rest ks := by
        unfold jsDeleteAll
        rw [List.filter_cons]
        have hd : decide ((k0, v0).1 ∉ ks) = false := by
          simp only [decide_eq_false_iff_not, Decidable.not_not]
          exact hk
        rw [hd]
        simp only [Bool.false_eq_true, if_false]
      rw [hstep, ih]
      rcases eq_or_ne k0 k with h0 | h0
      · subst h0
        simp [hk]
      · rw [show jsGet ((k0, v0) :: rest) k = jsGet rest k by
          simp [jsGet, h0]]
    · have hstep : jsDeleteAll ((k0, v0) :: rest) ks =
          (k0, v0) :: jsDeleteAll rest ks := by
        unfold jsDeleteAll
        rw [List.filter_cons]
        have hd : decide ((k0, v0).1 ∉ ks) = true := by
          simp only [decide_eq_true_eq]
          exact hk
        rw [hd]
        simp only [if_true]
      rw [hstep]
      rcases eq_or_ne k0 k with h0 | h0
      · subst h0
        rw [show jsGet ((k0, v0) :: jsDeleteAll rest ks) k0 = some v0 by
          simp [jsGet]]
        rw [show jsGet ((k0, v0) :: rest) k0 = some v0 by simp [jsGet]]
        simp [hk]
      · rw [show jsGet ((k0, v0) :: jsDeleteAll rest ks) k =
            jsGet (jsDeleteAll rest ks) k by simp [jsGet, h0]]
        rw [show jsGet ((k0, v0) :: rest) k = jsGet rest k by
          simp [jsGet, h0]]
        exact ih

/-! ## C3 — tier quantization -/

/-- **C3, counterexample.**  The claim states the chosen tier is the smallest
preset `≥ w · devicePixelRatio`.  At container width `w = 400` and
`devicePixelRatio = 1.001` the effective width is `400.4`, so the spec formula
yields the 800 tier, but the code rounds (`Math.round`) before comparing and
picks the 400 tier. -/
theorem selectThumbnailSize_spec_counterexample :
    selectThumbnailSize 400 (1001 / 1000) = 400 ∧
      specTier ((400 : ℚ) * (1001 / 1000)) = 800 ∧ (400 : ℕ) ≠ 800 := by
  refine ⟨?_, ?_, by decide⟩
  · have h : round ((400 : ℚ) * max 1 (1001 / 1000)) = (400 : ℤ) := by
      have hm : max (1 : ℚ) (1001 / 1000) = 1001 / 1000 := by norm_num
      rw [hm]
      norm_num [round_eq]
    simp [selectThumbnailSize, h]
  · unfold specTier THUMBNAIL_SIZES_ARRAY
    rw [List.find?_cons_of_neg _ (by norm_num),
      List.find?_cons_of_pos _ (by norm_num)]
    rfl

/-- **C3, amended.**  For every requested width `w ≥ 50` and device pixel
ratio, the chosen tier equals the smallest preset
`≥ Math.round(w · max(1, dpr))` (else the largest); the server quantization is
idempotent on the client's choice, and for integer effective widths
(`dpr = 1`) this coincides with the spec's formula — in particular
`w ≤ 400 → 400`, `400 < w ≤ 800 → 800`, `800 < w ≤ 1600 → 1600`. -/
theorem tier_quantization_amended (w : ℕ) (_hw : 50 ≤ w) (dpr : ℚ) :
    quantizeWidth (selectThumbnailSize (w : ℚ) dpr) =
        selectThumbnailSize (w : ℚ) dpr ∧
      selectThumbnailSize (w : ℚ) dpr =
        specTier ((round ((w : ℚ) * max 1 dpr) : ℤ) : ℚ) ∧
      (dpr = 1 → selectThumbnailSize (w : ℚ) dpr = specTier ((w : ℚ) * dpr)) := by
  have hspec : ∀ r : ℤ,
      specTier (r : ℚ) = if r ≤ 400 then 400 else if r ≤ 800 then 800 else 1600 := by
    intro r
    unfold specTier THUMBNAIL_SIZES_ARRAY THUMBNAIL_MAX_WIDTH
    by_cases h1 : r ≤ 400
    · rw [List.find?_cons_of_pos _
        (by simp only [decide_eq_true_eq]; exact_mod_cast h1)]
      simp [h1]
    · rw [List.find?_cons_of_neg _
        (by simp only [decide_eq_true_eq]; exact_mod_cast h1)]
      by_cases h2 : r ≤ 800
      · rw [List.find?_cons_of_pos _
          (by simp only [decide_eq_true_eq]; exact_mod_cast h2)]
        simp [h1, h2]
      · rw [List.find?_cons_of_neg _
          (by simp only [decide_eq_true_eq]; exact_mod_cast h2)]
        by_cases h3 : r ≤ 1600
        · rw [List.find?_cons_of_pos _
            (by simp only [decide_eq_true_eq]; exact_mod_cast h3)]
          simp [h1, h2]
        · rw [List.find?_cons_of_neg _
            (by simp only [decide_eq_true_eq]; exact_mod_cast h3)]
          simp [h1, h2]
  have hsel : selectThumbnailSize (w : ℚ) dpr =
      specTier ((round ((w : ℚ) * max 1 dpr) : ℤ) : ℚ) := by
    rw [hspec]
    simp only [selectThumbnailSize]
  refine ⟨?_, hsel, ?_⟩
  · rw [hsel, hspec]
    split_ifs <;> decide
  · intro h1
    subst h1
    have hmax : max (1 : ℚ) 1 = 1 := by norm_num
    have hr : round ((w : ℚ) * max 1 1) = (w : ℤ) := by
      rw [hmax, mul_one, round_natCast]
    rw [hsel, hr, mul_one]
    norm_cast

/-- **C3, witness** for the amended theorem, at the spec's own example:
requested width 500 at device pixel ratio 2 resolves to the 1600 tier. -/
theorem tier_quantization_amended_witness :
    (50 ≤ 500 ∧ quantizeWidth (selectThumbnailSize (500 : ℚ) 2) =
        selectThumbnailSize (500 : ℚ) 2) ∧ selectThumbnailSize (500 : ℚ) 2 = 1600 := by
  refine ⟨⟨by decide, (tier_quantization_amended 500 (by decide) 2).1⟩, ?_⟩
  have hm : max (1 : ℚ) 2 = 2 := by norm_num
  have h : round ((500 : ℚ) * 2) = (1000 : ℤ) := by norm_num [round_eq]
  simp [selectThumbnailSize, hm, h]

/-! ## C10 — server-source id disjointness -/

theorem scanServerSourcesGo_ids (srcs : List ServerSrcIn)
    (acc : List ServerSourceDto) :
    ∃ k, (scanServerSourcesGo acc srcs).map (fun s => s.id) =
      acc.map (fun s => s.id) ++
        List.range' (SERVER_SOURCE_ID_OFFSET + acc.length) k := by
  induction srcs generalizing acc with
  | nil => exact ⟨0, by simp [scanServerSourcesGo]⟩
  | cons s rest ih =>
    by_cases h : s.name = "" ∨ s.path = ""
    · obtain ⟨k, hk⟩ := ih acc
      exact ⟨k, by simp [scanServerSourcesGo, h, hk]⟩
    · obtain ⟨k, hk⟩ := ih
        (acc ++ [⟨SERVER_SOURCE_ID_OFFSET + acc.length, s.name⟩])
      refine ⟨k + 1, ?_⟩
      rw [show scanServerSourcesGo acc (s :: rest) =
          scanServerSourcesGo
            (acc ++ [⟨SERVER_SOURCE_ID_OFFSET + acc.length, s.name⟩]) rest by
        simp [scanServerSourcesGo, h]]
      rw [hk]
      simp only [List.map_append, List.length_append, List.map_cons,
        List.map_nil, List.length_cons, List.length_nil]
      rw [List.append_assoc]
      congr 1

/-- **C10.**  Every source produced by the server-side folder scan gets
`id = 10000 + position`; hence all server source ids are at least
`SERVER_SOURCE_ID_OFFSET`, and they cannot collide with the
browser-side auto-incremented ids as long as those stay below 10000 (the
range `1–9999` documented in the code). -/
theorem scanServerSources_id_offset (srcs : List ServerSrcIn)
    (localIds : List Nat) (hl : ∀ l ∈ localIds, l < SERVER_SOURCE_ID_OFFSET) :
    (scanServerSources srcs).map (fun s => s.id) =
        List.range' SERVER_SOURCE_ID_OFFSET (scanServerSources srcs).length ∧
      (∀ s ∈ scanServerSources srcs, SERVER_SOURCE_ID_OFFSET ≤ s.id) ∧
      ∀ s ∈ scanServerSources srcs, s.id ∉ localIds := by
  obtain ⟨k, hk⟩ := scanServerSourcesGo_ids srcs []
  simp only [List.map_nil, List.length_nil, Nat.add_zero, List.nil_append]
    at hk
  have hlen : (scanServerSources srcs).length = k := by
    have := congrArg List.length hk
    simpa [scanServerSources] using this
  have hid : ∀ s ∈ scanServerSources srcs, SERVER_SOURCE_ID_OFFSET ≤ s.id := by
    intro s hs
    have : s.id ∈ List.range' SERVER_SOURCE_ID_OFFSET k := by
      rw [← hk]
      exact List.mem_map.mpr ⟨s, by simpa [scanServerSources] using hs, rfl⟩
    exact (List.mem_range'_1.mp this).1
  refine ⟨by rw [hlen]; simpa [scanServerSources] using hk, hid, ?_⟩
  intro s hs hmem
  exact absurd (hl _ hmem) (not_lt.mpr (hid s hs))

/-- **C10, witness**: two configured folders (one with a falsy name, skipped)
against local ids `[1, 2, 3]`. -/
theorem scanServerSources_id_offset_witness :
    (∀ l ∈ [1, 2, 3], l < SERVER_SOURCE_ID_OFFSET) ∧
      ∀ s ∈ scanServerSources [⟨"a", "/x"⟩, ⟨"", "/y"⟩, ⟨"b", "/z"⟩],
        s.id ∉ [1, 2, 3] :=
  ⟨by decide,
    (scanServerSources_id_offset [⟨"a", "/x"⟩, ⟨"", "/y"⟩, ⟨"b", "/z"⟩]
      [1, 2, 3] (by decide)).2.2⟩

/-! ## C7 — persistence of the metadata store -/

/-- **C7, counterexample.**  The claim says both eviction phases persist the
cache metadata with a write-to-temp-then-rename.  A sweep that expires one
entry persists through `saveCacheMetadata`, whose trace is a single direct
write of the metadata file — not an atomic replace (the target itself is
written). -/
theorem saveCacheMetadata_not_atomic_counterexample :
    (cleanupCacheIfNeeded (CACHE_TTL_MS + 1) [("aa.webp", 10)]
        [("aa.webp", ⟨0, 0, 10, 1⟩)]).persistOps =
      [FsOp.write CACHE_METADATA_FILE] ∧
      ¬ AtomicPersist [FsOp.write CACHE_METADATA_FILE] CACHE_METADATA_FILE := by
  constructor
  · decide
  · rintro ⟨h, -⟩
    exact h CACHE_METADATA_FILE (by simp) rfl

/-- **C7, amended.**  Every metadata persist performed by the eviction sweep
is a plain direct write of the cache-metadata file (no temporary file, no
rename); the write-to-temp-then-rename pattern is used by the separate server
inventory snapshot (`persistServerCache`), which does satisfy the atomic
replacement property. -/
theorem persist_traces_amended :
    (∀ now disk meta, ∃ k, (cleanupCacheIfNeeded now disk meta).persistOps =
        List.replicate k (FsOp.write CACHE_METADATA_FILE)) ∧
      AtomicPersist persistServerCacheTrace CACHE_FILE_PATH := by
  constructor
  · intro now disk meta
    have h1 : (budgetPhase disk meta).ops = [] ∨
        (budgetPhase disk meta).ops = saveCacheMetadataTrace := by
      by_cases hc : MAX_CACHE_SIZE_BYTES <
          ((diskFiles disk).map (fun e => e.2)).sum
      · exact Or.inr (by simp [budgetPhase, hc])
      · exact Or.inl (by simp [budgetPhase, hc])
    have h2 : ∀ d m, (ttlPhase now d m).ops = [] ∨
        (ttlPhase now d m).ops = saveCacheMetadataTrace := by
      intro d m
      by_cases hc : (m.filter
          (fun e => CACHE_TTL_MS < now - e.2.modifiedAt)).isEmpty
      · exact Or.inl (by simp [ttlPhase, hc])
      · exact Or.inr (by simp [ttlPhase, hc])
    unfold cleanupCacheIfNeeded
    rcases h1 with h1 | h1 <;>
      rcases h2 (budgetPhase disk meta).disk (budgetPhase disk meta).meta
        with h2 | h2 <;>
      simp only [h1, h2, List.nil_append, List.append_nil]
    · exact ⟨0, rfl⟩
    · exact ⟨1, rfl⟩
    · exact ⟨1, rfl⟩
    · exact ⟨2, rfl⟩
  · constructor
    · intro p hp
      simp only [persistServerCacheTrace, List.mem_cons, List.not_mem_nil,
        or_false] at hp
      rcases hp with hp | hp
      · rw [FsOp.write.injEq] at hp
        rw [hp]
        decide
      · exact absurd hp (by simp)
    · exact ⟨CACHE_FILE_PATH ++ ".tmp", rfl⟩

/-! ## C2 — single-flight thumbnail generation -/

/-- **C2, counterexample.**  Two concurrent requests for the same uncached
key, interleaved at the `await` boundaries (both pass the cache-existence
check before either writes), each run the decode/resize generation: two
generations, not one, although both complete successfully.  There is no
generation-in-flight registry in the handler. -/
theorem thumb_single_flight_counterexample :
    (thumbRun (thumbInit 2) [0, 1, 0, 1, 0, 1]).gens = 2 ∧
      (thumbRun (thumbInit 2) [0, 1, 0, 1, 0, 1]).pcs =
        [ReqPc.done, ReqPc.done] := by
  decide

/-- A request that still precedes its generation step. -/
def isPending : ReqPc → Bool
  | ReqPc.checking => true
  | ReqPc.generating => true
  | ReqPc.writing => false
  | ReqPc.done => false

def pendingCount (pcs : List ReqPc) : Nat :=
  pcs.countP isPending

theorem countP_set (l : List ReqPc) (i : Nat) (x : ReqPc)
    (p : ReqPc → Bool) (pc : ReqPc) (h : l.get? i = some pc) :
    (l.set i x).countP p + (if p pc then 1 else 0) =
      l.countP p + (if p x then 1 else 0) := by
  induction l generalizing i with
  | nil => simp at h
  | cons a rest ih =>
    cases i with
    | zero =>
      simp only [List.get?_cons_zero, Option.some.injEq] at h
      subst h
      simp only [List.set_cons_zero, List.countP_cons]
      omega
    | succ n =>
      simp only [List.get?_cons_succ] at h
      simp only [List.set_cons_succ, List.countP_cons]
      have := ih n h
      omega

theorem thumbStep_invariant (s : ThumbState) (i : Nat)
    (h : s.gens + pendingCount s.pcs ≤ s.pcs.length) :
    (thumbStep s i).gens + pendingCount (thumbStep s i).pcs ≤
      (thumbStep s i).pcs.length := by
  unfold thumbStep
  cases hg : s.pcs.get? i with
  | none => exact h
  | some pc =>
    have hlen : ∀ x : ReqPc, (s.pcs.set i x).length = s.pcs.length :=
      fun x => List.length_set ..
    cases pc with
    | checking =>
      cases hc : s.cached
      · simp only [hc, Bool.false_eq_true, if_false]
        have hcnt := countP_set s.pcs i ReqPc.generating isPending
          ReqPc.checking hg
        unfold pendingCount at h ⊢
        rw [hlen]
        simp only [isPending, eq_self_iff_true, if_true, Bool.false_eq_true,
          if_false] at hcnt
        omega
      · simp only [hc, eq_self_iff_true, if_true]
        have hcnt := countP_set s.pcs i ReqPc.done isPending ReqPc.checking hg
        unfold pendingCount at h ⊢
        rw [hlen]
        simp only [isPending, eq_self_iff_true, if_true, Bool.false_eq_true,
          if_false] at hcnt
        omega
    | generating =>
      have hcnt := countP_set s.pcs i ReqPc.writing isPending
        ReqPc.generating hg
      unfold pendingCount at h ⊢
      dsimp only
      rw [hlen]
      simp only [isPending, eq_self_iff_true, if_true, Bool.false_eq_true,
        if_false] at hcnt
      omega
    | writing =>
      have hcnt := countP_set s.pcs i ReqPc.done isPending ReqPc.writing hg
      unfold pendingCount at h ⊢
      dsimp only
      rw [hlen]
      simp only [isPending, eq_self_iff_true, if_true, Bool.false_eq_true,
        if_false] at hcnt
      omega
    | done => exact h

theorem thumbRun_invariant (sched : List Nat) (s : ThumbState)
    (h : s.gens + pendingCount s.pcs ≤ s.pcs.length) :
    (thumbRun s sched).gens + pendingCount (thumbRun s sched).pcs ≤
      (thumbRun s sched).pcs.length := by
  induction sched generalizing s with
  | nil => exact h
  | cons i rest ih => exact ih (thumbStep s i) (thumbStep_invariant s i h)

theorem thumbRun_length (sched : List Nat) (s : ThumbState) :
    (thumbRun s sched).pcs.length = s.pcs.length := by
  induction sched generalizing s with
  | nil => rfl
  | cons i rest ih =>
    rw [thumbRun, List.foldl_cons, ← thumbRun, ih]
    unfold thumbStep
    cases hg : s.pcs.get? i with
    | none => rfl
    | some pc =>
      cases pc with
      | checking => by_cases hc : s.cached <;> simp [hc, List.length_set]
      | generating => simp [List.length_set]
      | writing => simp [List.length_set]
      | done => rfl

/-- **C2, amended.**  The route has no single-flight coalescing: each request
that observes a cache miss runs its own generation.  Under every interleaving
of `n` concurrent requests for one uncached key, the number of generations is
at most `n` (one per request, as witnessed tight by the counterexample), and a
request that only arrives after a completed write is served from the cache
without generating (schedule `[0,0,0,1]`: one generation, both requests
complete). -/
theorem thumb_generations_amended (n : Nat) :
    (∀ sched : List Nat, (thumbRun (thumbInit n) sched).gens ≤ n) ∧
      (thumbRun (thumbInit 2) [0, 0, 0, 1]).gens = 1 ∧
      (thumbRun (thumbInit 2) [0, 0, 0, 1]).pcs = [ReqPc.done, ReqPc.done] := by
  refine ⟨?_, by decide, by decide⟩
  intro sched
  have hinit : (thumbInit n).gens + pendingCount (thumbInit n).pcs ≤
      (thumbInit n).pcs.length := by
    unfold thumbInit pendingCount
    simp only [List.countP_eq_length_filter]
    have hfil : (List.replicate n ReqPc.checking).filter isPending =
        List.replicate n ReqPc.checking := by
      rw [List.filter_eq_self]
      intro a ha
      rw [List.eq_of_mem_replicate ha]
      rfl
    rw [hfil]
    simp
  have h := thumbRun_invariant sched (thumbInit n) hinit
  have hlen := thumbRun_length sched (thumbInit n)
  have : (thumbInit n).pcs.length = n := by simp [thumbInit]
  omega

/-! ## C6 — TTL eviction -/

theorem budgetPhase_meta_get (disk : List (String × Nat))
    (meta : List (String × CacheEntry)) (name : String) :
    jsGet (budgetPhase disk meta).meta name =
      if name ∈ (budgetPhase disk meta).deleted.map (fun e => e.1) then none
      else jsGet meta name := by
  unfold budgetPhase
  by_cases hc : MAX_CACHE_SIZE_BYTES < ((diskFiles disk).map (fun e => e.2)).sum
  · simp only [hc, if_true]
    rw [jsGet_jsDeleteAll]
  · simp [hc]

theorem budgetPhase_disk_get (disk : List (String × Nat))
    (meta : List (String × CacheEntry)) (name : String) :
    jsGet (budgetPhase disk meta).disk name =
      if name ∈ (budgetPhase disk meta).deleted.map (fun e => e.1) then none
      else jsGet disk name := by
  unfold budgetPhase
  by_cases hc : MAX_CACHE_SIZE_BYTES < ((diskFiles disk).map (fun e => e.2)).sum
  · simp only [hc, if_true]
    rw [jsGet_jsDeleteAll]
  · simp [hc]

theorem ttlPhase_get_none (now : Int) (d : List (String × Nat))
    (m : List (String × CacheEntry)) (name : String)
    (hm : jsGet m name = none) (hd : jsGet d name = none) :
    jsGet (ttlPhase now d m).meta name = none ∧
      jsGet (ttlPhase now d m).disk name = none := by
  by_cases hc : (m.filter
      (fun e => decide (CACHE_TTL_MS < now - e.2.modifiedAt))).isEmpty
  · constructor <;> simp [ttlPhase, hc, hm, hd]
  · constructor <;> simp [ttlPhase, hc, jsGet_jsDeleteAll, hm, hd]

theorem ttlPhase_removes (now : Int) (d : List (String × Nat))
    (m : List (String × CacheEntry)) (name : String) (e : CacheEntry)
    (hm : jsGet m name = some e) (hexp : CACHE_TTL_MS < now - e.modifiedAt)
    (hd : (jsGet d name).isSome) :
    jsGet (ttlPhase now d m).meta name = none ∧
      jsGet (ttlPhase now d m).disk name = none := by
  have hmem : (name, e) ∈ m := jsGet_mem hm
  have hexpired : (name, e) ∈
      m.filter (fun x => decide (CACHE_TTL_MS < now - x.2.modifiedAt)) := by
    rw [List.mem_filter]
    exact ⟨hmem, by simpa using hexp⟩
  have hremoved : name ∈
      ((m.filter (fun x => decide (CACHE_TTL_MS < now - x.2.modifiedAt))).filter
        (fun x => (jsGet d x.1).isSome)).map (fun x => x.1) := by
    refine List.mem_map.mpr ⟨(name, e), ?_, rfl⟩
    rw [List.mem_filter]
    exact ⟨hexpired, by simpa using hd⟩
  have hne : ¬ (m.filter
      (fun x => decide (CACHE_TTL_MS < now - x.2.modifiedAt))).isEmpty := by
    intro hie
    rw [List.isEmpty_iff] at hie
    rw [hie] at hexpired
    exact List.not_mem_nil _ hexpired
  constructor <;>
    simp only [ttlPhase, hne, Bool.false_eq_true, if_false,
      jsGet_jsDeleteAll, hremoved, if_true]

/-- **C6, counterexample.**  The claim says every over-TTL entry is removed
(file unlinked and entry deleted) by the next sweep.  An entry whose backing
file no longer exists on disk makes `unlink` throw `ENOENT`; the `catch`
skips the metadata delete, so the expired entry survives the sweep. -/
theorem ttl_orphan_counterexample :
    CACHE_TTL_MS < (CACHE_TTL_MS + 1) - (0 : Int) ∧
      (cleanupCacheIfNeeded (CACHE_TTL_MS + 1) []
          [("aa.webp", ⟨0, 0, 10, 1⟩)]).meta =
        [("aa.webp", ⟨0, 0, 10, 1⟩)] := by
  constructor
  · decide
  · rfl

/-- **C6, amended.**  Every metadata entry whose last-accessed-at is older
than the TTL at sweep time *and whose backing file exists on disk* is gone
after the sweep — the entry is deleted from the metadata store and the file
is unlinked — regardless of whether total cache size is under the byte
budget.  (An entry without a backing file survives, as the counterexample
shows.) -/
theorem ttl_eviction_amended (now : Int) (disk : List (String × Nat))
    (meta : List (String × CacheEntry)) (name : String) (e : CacheEntry)
    (hm : jsGet meta name = some e) (hexp : CACHE_TTL_MS < now - e.modifiedAt)
    (hdisk : (jsGet disk name).isSome) :
    jsGet (cleanupCacheIfNeeded now disk meta).meta name = none ∧
      jsGet (cleanupCacheIfNeeded now disk meta).disk name = none := by
  unfold cleanupCacheIfNeeded
  by_cases hdel : name ∈ (budgetPhase disk meta).deleted.map (fun x => x.1)
  · have h1m : jsGet (budgetPhase disk meta).meta name = none := by
      rw [budgetPhase_meta_get]; simp [hdel]
    have h1d : jsGet (budgetPhase disk meta).disk name = none := by
      rw [budgetPhase_disk_get]; simp [hdel]
    exact ttlPhase_get_none now _ _ name h1m h1d
  · have h1m : jsGet (budgetPhase disk meta).meta name = some e := by
      rw [budgetPhase_meta_get]; simp [hdel, hm]
    have h1d : (jsGet (budgetPhase disk meta).disk name).isSome := by
      rw [budgetPhase_disk_get]; simp [hdel, hdisk]
    exact ttlPhase_removes now _ _ name e h1m hexp h1d

/-- **C6, witness**: a 10-byte entry 8 days old with its file on disk is gone
after a sweep even though the 10-byte cache is far under the 500 MB budget. -/
theorem ttl_eviction_amended_witness :
    jsGet (cleanupCacheIfNeeded (8 * 24 * 60 * 60 * 1000) [("aa.webp", 10)]
        [("aa.webp", ⟨0, 0, 10, 1⟩)]).meta "aa.webp" = none ∧
      jsGet (cleanupCacheIfNeeded (8 * 24 * 60 * 60 * 1000) [("aa.webp", 10)]
        [("aa.webp", ⟨0, 0, 10, 1⟩)]).disk "aa.webp" = none :=
  ttl_eviction_amended (8 * 24 * 60 * 60 * 1000) [("aa.webp", 10)]
    [("aa.webp", ⟨0, 0, 10, 1⟩)] "aa.webp" ⟨0, 0, 10, 1⟩ (by rfl) (by decide)
    (by rfl)

/-! ## C4 — eviction byte budget -/

theorem budgetLoop_deleted_take (fs : List (String × Nat)) (need : Nat)
    (l : List (String × CacheEntry)) (f : Nat) :
    ∃ k, (budgetLoop fs need l f).1 = l.take k := by
  induction l generalizing f with
  | nil => exact ⟨0, rfl⟩
  | cons e rest ih =>
    by_cases h : need ≤ f
    · exact ⟨0, by simp [budgetLoop, h]⟩
    · obtain ⟨k, hk⟩ := ih (f + (jsGet fs e.1).getD 0)
      exact ⟨k + 1, by simp [budgetLoop, h, hk]⟩

theorem budgetLoop_freed (fs : List (String × Nat)) (need : Nat)
    (l : List (String × CacheEntry)) (f : Nat) :
    (budgetLoop fs need l f).2 =
      f + (((budgetLoop fs need l f).1).map
        (fun e => (jsGet fs e.1).getD 0)).sum := by
  induction l generalizing f with
  | nil => simp [budgetLoop]
  | cons e rest ih =>
    by_cases h : need ≤ f
    · simp [budgetLoop, h]
    · simp only [budgetLoop, h, if_false, List.map_cons, List.sum_cons]
      rw [ih]
      omega

theorem budgetLoop_post (fs : List (String × Nat)) (need : Nat)
    (l : List (String × CacheEntry)) (f : Nat) :
    need ≤ (budgetLoop fs need l f).2 ∨ (budgetLoop fs need l f).1 = l := by
  induction l generalizing f with
  | nil => exact Or.inr rfl
  | cons e rest ih =>
    by_cases h : need ≤ f
    · refine Or.inl ?_
      simp [budgetLoop, h]
    · rcases ih (f + (jsGet fs e.1).getD 0) with h2 | h2
      · refine Or.inl ?_
        simp only [budgetLoop, h, if_false]
        exact h2
      · refine Or.inr ?_
        simp only [budgetLoop, h, if_false, h2]

theorem entryLE_trans (a b c : String × CacheEntry)
    (hab : entryLE a b = true) (hbc : entryLE b c = true) :
    entryLE a c = true := by
  simp only [entryLE, decide_eq_true_eq] at hab hbc ⊢
  rcases hab with h | ⟨h1, h2⟩ <;> rcases hbc with g | ⟨g1, g2⟩
  · exact Or.inl (h.trans g)
  · exact Or.inl (g1 ▸ h)
  · exact Or.inl (h1 ▸ g)
  · exact Or.inr ⟨h1.trans g1, h2.trans g2⟩

theorem entryLE_total (a b : String × CacheEntry) :
    (entryLE a b || entryLE b a) = true := by
  simp only [entryLE, Bool.or_eq_true, decide_eq_true_eq]
  rcases lt_trichotomy a.2.accessCount b.2.accessCount with h | h | h
  · exact Or.inl (Or.inl h)
  · rcases le_total a.2.modifiedAt b.2.modifiedAt with g | g
    · exact Or.inl (Or.inr ⟨h, g⟩)
    · exact Or.inr (Or.inr ⟨h.symm, g⟩)
  · exact Or.inr (Or.inl h)

theorem sum_map_snd_filter_split (fs : List (String × Nat))
    (p : String × Nat → Bool) :
    ((fs.filter p).map (fun e => e.2)).sum +
        ((fs.filter (fun e => ! p e)).map (fun e => e.2)).sum =
      (fs.map (fun e => e.2)).sum := by
  induction fs with
  | nil => simp
  | cons e rest ih =>
    cases h : p e with
    | false =>
      simp only [List.filter_cons, h, Bool.false_eq_true, if_false,
        Bool.not_false, if_true, List.map_cons, List.sum_cons]
      omega
    | true =>
      simp only [List.filter_cons, h, if_true, Bool.not_true,
        Bool.false_eq_true, if_false, List.map_cons, List.sum_cons]
      omega

theorem sum_map_snd_filter_nonzero (fs : List (String × Nat)) :
    ((fs.filter (fun e => decide (e.2 ≠ 0))).map (fun e => e.2)).sum =
      (fs.map (fun e => e.2)).sum := by
  induction fs with
  | nil => simp
  | cons e rest ih =>
    rw [List.filter_cons]
    by_cases h : e.2 = 0
    · rw [show (decide (e.2 ≠ 0)) = false by simp [h]]
      simp only [Bool.false_eq_true, if_false]
      rw [ih]
      simp [h]
    · rw [show (decide (e.2 ≠ 0)) = true by simp [h]]
      simp only [if_true, List.map_cons, List.sum_cons]
      rw [ih]

theorem filter_mem_perm (fs : List (String × Nat))
    (hfs : (fs.map (fun e => e.1)).Nodup) (names : List String)
    (hnd : names.Nodup) (hsub : ∀ n ∈ names, (jsGet fs n).isSome) :
    (fs.filter (fun e => decide (e.1 ∈ names))).Perm
      (names.map (fun n => (n, (jsGet fs n).getD 0))) := by
  have hfs' : (fs.map Prod.fst).Nodup := by
    have : (fun (e : String × Nat) => e.1) = Prod.fst := rfl
    rw [← this]
    exact hfs
  apply List.perm_of_nodup_nodup_toFinset_eq
  · exact ((List.Nodup.of_map _ hfs).filter _)
  · refine List.Nodup.map ?_ hnd
    intro a b hab
    exact congrArg Prod.fst hab
  · ext x
    obtain ⟨n, v⟩ := x
    simp only [List.mem_toFinset, List.mem_filter, List.mem_map,
      decide_eq_true_eq]
    constructor
    · rintro ⟨hmem, hn⟩
      refine ⟨n, hn, ?_⟩
      rw [jsGet_eq_some_of_nodup hfs' hmem]
      rfl
    · rintro ⟨n', hn', heq⟩
      rw [Prod.mk.injEq] at heq
      obtain ⟨rfl, rfl⟩ := heq
      obtain ⟨v0, hv0⟩ := Option.isSome_iff_exists.mp (hsub n' hn')
      rw [hv0]
      exact ⟨jsGet_mem (by rw [hv0]; rfl), hn'⟩

theorem sum_le_of_subperm (l₁ l₂ : List Nat) (h : l₁.Subperm l₂) :
    l₁.sum ≤ l₂.sum := by
  obtain ⟨l, hp, hs⟩ := h
  calc l₁.sum = l.sum := hp.symm.sum_eq
  _ ≤ l₂.sum := hs.sum_le_sum (by simp)

theorem diskFiles_jsDeleteAll (d : List (String × Nat))
    (names : List String) :
    diskFiles (jsDeleteAll d names) = jsDeleteAll (diskFiles d) names := by
  unfold diskFiles jsDeleteAll
  rw [List.filter_filter, List.filter_filter]
  apply List.filter_congr
  intro e _
  rw [Bool.and_comm]

theorem sortedEntries_names_nodup (fs : List (String × Nat))
    (meta : List (String × CacheEntry))
    (hmn : (meta.map (fun e => e.1)).Nodup) :
    ((sortedEntries fs meta).map (fun e => e.1)).Nodup := by
  have hperm : (sortedEntries fs meta).Perm
      (meta.filter (fun e => decide ((jsGet fs e.1).getD 0 ≠ 0))) :=
    List.mergeSort_perm _ _
  have hf : ((meta.filter (fun e => decide ((jsGet fs e.1).getD 0 ≠ 0))).map
      (fun e => e.1)).Nodup :=
    List.Nodup.sublist (List.Sublist.map _ (List.filter_sublist _)) hmn
  exact ((hperm.map (fun e => e.1)).symm).nodup hf

theorem sortedEntries_stat_nonzero (fs : List (String × Nat))
    (meta : List (String × CacheEntry)) (e : String × CacheEntry)
    (he : e ∈ sortedEntries fs meta) : (jsGet fs e.1).getD 0 ≠ 0 := by
  have hmem : e ∈ meta.filter
      (fun e => decide ((jsGet fs e.1).getD 0 ≠ 0)) :=
    (List.mergeSort_perm _ entryLE).subset he
  simpa using (List.mem_filter.mp hmem).2

/-- The core accounting of the byte-budget phase: with unique names, unique
metadata keys, and every non-empty cache file tracked by a metadata entry,
the deletion loop drives the remaining stat total down to the 80% target. -/
theorem budget_accounting (fs : List (String × Nat))
    (meta : List (String × CacheEntry))
    (hdn : (fs.map (fun e => e.1)).Nodup)
    (hmn : (meta.map (fun e => e.1)).Nodup)
    (hcov : ∀ p ∈ fs, p.2 ≠ 0 → (jsGet meta p.1).isSome) :
    ((jsDeleteAll fs
        (((budgetLoop fs ((fs.map (fun e => e.2)).sum - targetSize)
          (sortedEntries fs meta) 0).1).map (fun e => e.1))).map
        (fun e => e.2)).sum + ((fs.map (fun e => e.2)).sum - targetSize) ≤
      (fs.map (fun e => e.2)).sum := by
  set total := (fs.map (fun e => e.2)).sum with htotal
  set sorted := sortedEntries fs meta with hsorted
  set dl := (budgetLoop fs (total - targetSize) sorted 0).1 with hdl
  set names := dl.map (fun e => e.1) with hnames
  have hsorted_nodup := sortedEntries_names_nodup fs meta hmn
  obtain ⟨k, hk⟩ := budgetLoop_deleted_take fs (total - targetSize) sorted 0
  have hnames_nodup : names.Nodup := by
    rw [hnames, hdl, hk, List.map_take]
    exact List.Nodup.sublist (List.take_sublist ..) hsorted_nodup
  have hmem_sorted : ∀ e ∈ dl, e ∈ sorted := by
    intro e he
    rw [hdl, hk] at he
    exact List.mem_of_mem_take he
  have hname_stat : ∀ n ∈ names, (jsGet fs n).isSome ∧
      (jsGet fs n).getD 0 ≠ 0 := by
    intro n hn
    obtain ⟨e, he, rfl⟩ := List.mem_map.mp hn
    have hnz := sortedEntries_stat_nonzero fs meta e (hmem_sorted e he)
    refine ⟨?_, hnz⟩
    cases hcase : jsGet fs e.1 with
    | none => rw [hcase] at hnz; simp at hnz
    | some v => rfl
  -- remaining + deleted-bytes = total
  have hfilter_eq : fs.filter (fun e => ! decide (e.1 ∉ names)) =
      fs.filter (fun e => decide (e.1 ∈ names)) := by
    apply List.filter_congr
    intro e _
    simp [decide_not]
  have hsplit := sum_map_snd_filter_split fs (fun e => decide (e.1 ∉ names))
  rw [hfilter_eq] at hsplit
  have hperm := filter_mem_perm fs hdn names hnames_nodup
    (fun n hn => (hname_stat n hn).1)
  have hdel_sum : ((fs.filter (fun e => decide (e.1 ∈ names))).map
      (fun e => e.2)).sum =
      (names.map (fun n => (jsGet fs n).getD 0)).sum := by
    rw [(hperm.map (fun e => e.2)).sum_eq, List.map_map]
    rfl
  -- the loop frees exactly the deleted stat bytes
  have hfreed := budgetLoop_freed fs (total - targetSize) sorted 0
  have hfreed_names : ((budgetLoop fs (total - targetSize) sorted 0).2) =
      (names.map (fun n => (jsGet fs n).getD 0)).sum := by
    rw [hfreed, hnames, List.map_map, ← hdl, Nat.zero_add]
    rfl
  -- the sorted entries cover at least the whole stat total
  have hstatA : ∀ p ∈ fs.filter (fun e => decide (e.2 ≠ 0)),
      jsGet fs p.1 = some p.2 := by
    intro p hp
    exact jsGet_eq_some_of_nodup hdn (List.mem_filter.mp hp).1
  have hsorted_sum : total ≤
      (sorted.map (fun e => (jsGet fs e.1).getD 0)).sum := by
    have hA_nodup : ((fs.filter (fun e => decide (e.2 ≠ 0))).map
        (fun e => e.1)).Nodup :=
      List.Nodup.sublist (List.Sublist.map _ (List.filter_sublist _)) hdn
    have hAsub : (fs.filter (fun e => decide (e.2 ≠ 0))).map (fun e => e.1) ⊆
        sorted.map (fun e => e.1) := by
      intro n hn
      obtain ⟨p, hp, rfl⟩ := List.mem_map.mp hn
      obtain ⟨hpfs, hpnz⟩ := List.mem_filter.mp hp
      have hnz : p.2 ≠ 0 := by simpa using hpnz
      have hsome := hcov p hpfs hnz
      obtain ⟨en, hen⟩ := Option.isSome_iff_exists.mp hsome
      have hment : (p.1, en) ∈ meta := jsGet_mem hen
      have hmfil : (p.1, en) ∈ meta.filter
          (fun e => decide ((jsGet fs e.1).getD 0 ≠ 0)) := by
        rw [List.mem_filter]
        refine ⟨hment, ?_⟩
        have : jsGet fs p.1 = some p.2 := hstatA p hp
        simp [this, hnz]
      have : p.1 ∈ (meta.filter
          (fun e => decide ((jsGet fs e.1).getD 0 ≠ 0))).map
          (fun e => e.1) :=
        List.mem_map.mpr ⟨(p.1, en), hmfil, rfl⟩
      exact (((List.mergeSort_perm _ entryLE).map (fun e => e.1)).mem_iff).mpr
        this
    have hsubperm :
        ((fs.filter (fun e => decide (e.2 ≠ 0))).map (fun e => e.1)).Subperm
          (sorted.map (fun e => e.1)) :=
      hA_nodup.subperm hAsub
    have hsubperm_stat :
        (((fs.filter (fun e => decide (e.2 ≠ 0))).map (fun e => e.1)).map
            (fun n => (jsGet fs n).getD 0)).Subperm
          ((sorted.map (fun e => e.1)).map
            (fun n => (jsGet fs n).getD 0)) := by
      obtain ⟨l, hp, hs⟩ := hsubperm
      exact ⟨l.map _, hp.map _, hs.map _⟩
    have hle := sum_le_of_subperm _ _ hsubperm_stat
    have hAeq : (((fs.filter (fun e => decide (e.2 ≠ 0))).map (fun e => e.1)).map
        (fun n => (jsGet fs n).getD 0)).sum = total := by
      rw [List.map_map]
      have : (fs.filter (fun e => decide (e.2 ≠ 0))).map
          ((fun n => (jsGet fs n).getD 0) ∘ (fun e => e.1)) =
          (fs.filter (fun e => decide (e.2 ≠ 0))).map (fun e => e.2) := by
        apply List.map_congr_left
        intro p hp
        simp only [Function.comp]
        rw [hstatA p hp]
        rfl
      rw [this, sum_map_snd_filter_nonzero]
    have hBeq : ((sorted.map (fun e => e.1)).map
        (fun n => (jsGet fs n).getD 0)).sum =
        (sorted.map (fun e => (jsGet fs e.1).getD 0)).sum := by
      rw [List.map_map]
      rfl
    rw [hAeq, hBeq] at hle
    exact hle
  -- assemble
  have hrem_eq : jsDeleteAll fs names =
      fs.filter (fun e => decide (e.1 ∉ names)) := rfl
  rw [hrem_eq]
  rcases budgetLoop_post fs (total - targetSize) sorted 0 with hpost | hpost
  · rw [hfreed_names] at hpost
    omega
  · have hnames_sum : (names.map (fun n => (jsGet fs n).getD 0)).sum =
        (sorted.map (fun e => (jsGet fs e.1).getD 0)).sum := by
      rw [hnames, hdl, hpost, List.map_map]
      rfl
    omega

theorem ttlPhase_disk_sublist (now : Int) (d : List (String × Nat))
    (m : List (String × CacheEntry)) : (ttlPhase now d m).disk.Sublist d := by
  by_cases hc : (m.filter
      (fun e => decide (CACHE_TTL_MS < now - e.2.modifiedAt))).isEmpty
  · simp [ttlPhase, hc]
  · simp only [ttlPhase, hc, Bool.false_eq_true, if_false]
    exact List.filter_sublist d

/-- **C4, counterexample.**  The claim says that after a sweep that found the
total exceeding the 500 MB budget, the total cache byte size is within the
budget.  A 600 MB cache file with no metadata entry is never eligible for
deletion (the phase only ranks metadata entries), so the sweep deletes
nothing and the cache stays at 600 MB. -/
theorem eviction_budget_counterexample :
    MAX_CACHE_SIZE_BYTES <
        (((diskFiles [("zz.webp", 629145600)]).map (fun e => e.2)).sum) ∧
      ((diskFiles (cleanupCacheIfNeeded 0 [("zz.webp", 629145600)] []).disk).map
        (fun e => e.2)).sum = 629145600 := by
  have hsorted : sortedEntries (diskFiles [("zz.webp", 629145600)])
      ([] : List (String × CacheEntry)) = [] := by
    simp [sortedEntries]
  have hcond : MAX_CACHE_SIZE_BYTES <
      ((diskFiles [("zz.webp", 629145600)]).map (fun e => e.2)).sum := by
    decide
  have hloop : budgetLoop (diskFiles [("zz.webp", 629145600)])
      ((((diskFiles [("zz.webp", 629145600)]).map (fun e => e.2)).sum) -
        targetSize) [] 0 = ([], 0) := rfl
  have hdisk1 : (budgetPhase [("zz.webp", 629145600)] []).disk =
      [("zz.webp", 629145600)] := by
    simp only [budgetPhase, hsorted, hcond, if_true, hloop]
    simp [jsDeleteAll]
  have hmeta1 : (budgetPhase [("zz.webp", 629145600)] []).meta = [] := by
    simp only [budgetPhase, hsorted, hcond, if_true, hloop]
    simp [jsDeleteAll]
  constructor
  · exact hcond
  · have hfinal : (cleanupCacheIfNeeded 0 [("zz.webp", 629145600)] []).disk =
        (ttlPhase 0 (budgetPhase [("zz.webp", 629145600)] []).disk
          (budgetPhase [("zz.webp", 629145600)] []).meta).disk := rfl
    rw [hfinal, hdisk1, hmeta1]
    have httl : (ttlPhase 0 [("zz.webp", 629145600)]
        ([] : List (String × CacheEntry))).disk = [("zz.webp", 629145600)] := by
      simp [ttlPhase]
    rw [httl]
    decide

/-- **C4, amended.**  Provided cache-file names and metadata keys are unique
and every non-empty cache file is tracked by a metadata entry, a sweep leaves
the total on-disk cache size at most the 500 MB budget (the budget phase
deletes least-used-then-oldest entries until 80% of the budget is reached,
and the TTL phase only shrinks the cache further), and the budget-phase
deletions are emitted in ascending (access count, then last-accessed-at)
order.  Untracked files are never deleted, so the bound can fail without the
coverage hypothesis (counterexample). -/
theorem eviction_budget_amended (now : Int) (disk : List (String × Nat))
    (meta : List (String × CacheEntry))
    (hdn : ((diskFiles disk).map (fun e => e.1)).Nodup)
    (hmn : (meta.map (fun e => e.1)).Nodup)
    (hcov : ∀ p ∈ diskFiles disk, p.2 ≠ 0 → (jsGet meta p.1).isSome) :
    ((diskFiles (cleanupCacheIfNeeded now disk meta).disk).map
        (fun e => e.2)).sum ≤ MAX_CACHE_SIZE_BYTES ∧
      List.Pairwise (fun a b => entryLE a b = true)
        (cleanupCacheIfNeeded now disk meta).deletedBudget := by
  have htarget : targetSize ≤ MAX_CACHE_SIZE_BYTES := by decide
  have hphase1 : ((diskFiles (budgetPhase disk meta).disk).map
      (fun e => e.2)).sum ≤ MAX_CACHE_SIZE_BYTES := by
    by_cases hc : MAX_CACHE_SIZE_BYTES <
        ((diskFiles disk).map (fun e => e.2)).sum
    · have hdisk : (budgetPhase disk meta).disk =
          jsDeleteAll disk
            (((budgetLoop (diskFiles disk)
                (((diskFiles disk).map (fun e => e.2)).sum - targetSize)
                (sortedEntries (diskFiles disk) meta) 0).1).map
              (fun e => e.1)) := by
        simp [budgetPhase, hc]
      rw [hdisk, diskFiles_jsDeleteAll]
      have hacc := budget_accounting (diskFiles disk) meta hdn hmn hcov
      omega
    · have hdisk : (budgetPhase disk meta).disk = disk := by
        simp [budgetPhase, hc]
      rw [hdisk]
      exact not_lt.mp hc
  constructor
  · have hfinal : (cleanupCacheIfNeeded now disk meta).disk =
        (ttlPhase now (budgetPhase disk meta).disk
          (budgetPhase disk meta).meta).disk := rfl
    rw [hfinal]
    have hsub := ttlPhase_disk_sublist now (budgetPhase disk meta).disk
      (budgetPhase disk meta).meta
    have hsub2 : (diskFiles ((ttlPhase now (budgetPhase disk meta).disk
        (budgetPhase disk meta).meta).disk)).Sublist
        (diskFiles (budgetPhase disk meta).disk) := hsub.filter _
    have hle : ((diskFiles ((ttlPhase now (budgetPhase disk meta).disk
        (budgetPhase disk meta).meta).disk)).map (fun e => e.2)).sum ≤
        ((diskFiles (budgetPhase disk meta).disk).map (fun e => e.2)).sum :=
      (hsub2.map _).sum_le_sum (by simp)
    exact hle.trans hphase1
  · have hdel : (cleanupCacheIfNeeded now disk meta).deletedBudget =
        (budgetPhase disk meta).deleted := rfl
    rw [hdel]
    by_cases hc : MAX_CACHE_SIZE_BYTES <
        ((diskFiles disk).map (fun e => e.2)).sum
    · have hd : (budgetPhase disk meta).deleted =
          (budgetLoop (diskFiles disk)
            (((diskFiles disk).map (fun e => e.2)).sum - targetSize)
            (sortedEntries (diskFiles disk) meta) 0).1 := by
        simp [budgetPhase, hc]
      rw [hd]
      obtain ⟨k, hk⟩ := budgetLoop_deleted_take (diskFiles disk)
        (((diskFiles disk).map (fun e => e.2)).sum - targetSize)
        (sortedEntries (diskFiles disk) meta) 0
      rw [hk]
      exact List.Pairwise.sublist (List.take_sublist ..)
        (List.sorted_mergeSort entryLE_trans entryLE_total _)
    · have hd : (budgetPhase disk meta).deleted = [] := by
        simp [budgetPhase, hc]
      rw [hd]
      exact List.Pairwise.nil

/-- **C4, witness**: a 600 MB cache of two 300 MB files, both tracked; the
sweep deletes the least-accessed one, leaving 300 MB ≤ 500 MB, in ascending
access-count order. -/
theorem eviction_budget_amended_witness :
    ((diskFiles (cleanupCacheIfNeeded 0
        [("a.webp", 314572800), ("b.webp", 314572800)]
        [("b.webp", ⟨0, 0, 314572800, 2⟩),
         ("a.webp", ⟨0, 0, 314572800, 1⟩)]).disk).map
        (fun e => e.2)).sum ≤ MAX_CACHE_SIZE_BYTES ∧
      List.Pairwise (fun a b => entryLE a b = true)
        (cleanupCacheIfNeeded 0
          [("a.webp", 314572800), ("b.webp", 314572800)]
          [("b.webp", ⟨0, 0, 314572800, 2⟩),
           ("a.webp", ⟨0, 0, 314572800, 1⟩)]).deletedBudget :=
  eviction_budget_amended 0
    [("a.webp", 314572800), ("b.webp", 314572800)]
    [("b.webp", ⟨0, 0, 314572800, 2⟩), ("a.webp", ⟨0, 0, 314572800, 1⟩)]
    (by decide) (by decide) (by decide)

/-! ## Scan worker: walker and driver characterizations -/

theorem scanLocalGo_adds (sid total : Nat) (m : List (Key × Picture))
    (i : Nat) (l : List FileInfo) :
    (scanLocalGo sid total m i l).adds =
      l.filterMap (fun f =>
        if jsGet m ⟨sid, f.name⟩ = none then some (localData sid f)
        else none) := by
  induction l generalizing i with
  | nil => rfl
  | cons f rest ih =>
    rw [List.filterMap_cons]
    simp only [scanLocalGo]
    cases hget : jsGet m ⟨sid, f.name⟩ with
    | none =>
      rw [show fingerprintOk none f = false from rfl]
      simp [ih]
    | some e =>
      by_cases hfp : fingerprintOk (some e) f
      · simp [hfp, ih]
      · simp only [Bool.not_eq_true] at hfp
        simp [hfp, ih]

theorem scanLocalGo_updates (sid total : Nat) (m : List (Key × Picture))
    (i : Nat) (l : List FileInfo) :
    (scanLocalGo sid total m i l).updates =
      l.filterMap (fun f =>
        match jsGet m ⟨sid, f.name⟩ with
        | some e =>
          if fingerprintOk (some e) f then none
          else some ((localData sid f).withId e.id)
        | none => none) := by
  induction l generalizing i with
  | nil => rfl
  | cons f rest ih =>
    rw [List.filterMap_cons]
    simp only [scanLocalGo]
    cases hget : jsGet m ⟨sid, f.name⟩ with
    | none =>
      rw [show fingerprintOk none f = false from rfl]
      simp [ih]
    | some e =>
      by_cases hfp : fingerprintOk (some e) f
      · simp [hfp, ih]
      · simp only [Bool.not_eq_true] at hfp
        simp [hfp, ih]

theorem scanLocalGo_seen (sid total : Nat) (m : List (Key × Picture))
    (i : Nat) (l : List FileInfo) :
    (scanLocalGo sid total m i l).seenKeys =
      l.map (fun f => (⟨sid, f.name⟩ : Key)) := by
  induction l generalizing i with
  | nil => rfl
  | cons f rest ih =>
    simp only [scanLocalGo, List.map_cons]
    cases hget : jsGet m ⟨sid, f.name⟩ with
    | none =>
      rw [show fingerprintOk none f = false from rfl]
      simp [ih]
    | some e =>
      by_cases hfp : fingerprintOk (some e) f
      · simp [hfp, ih]
      · simp only [Bool.not_eq_true] at hfp
        simp [hfp, ih]

theorem scanLocalGo_counts (sid total : Nat) (m : List (Key × Picture))
    (i : Nat) (l : List FileInfo) :
    (scanLocalGo sid total m i l).adds.length +
        (scanLocalGo sid total m i l).updates.length =
      (scanLocalGo sid total m i l).slowIdx.length := by
  induction l generalizing i with
  | nil => rfl
  | cons f rest ih =>
    simp only [scanLocalGo]
    cases hget : jsGet m ⟨sid, f.name⟩ with
    | none =>
      rw [show fingerprintOk none f = false from rfl]
      simp only [Bool.false_eq_true, if_false, List.length_cons]
      have := ih (i + 1)
      omega
    | some e =>
      by_cases hfp : fingerprintOk (some e) f
      · simpa [hfp] using ih (i + 1)
      · simp only [Bool.not_eq_true] at hfp
        simp only [hfp, Bool.false_eq_true, if_false, List.length_cons]
        have := ih (i + 1)
        omega

theorem scanLocalGo_slow (sid total : Nat) (m : List (Key × Picture))
    (i : Nat) (l : List FileInfo) (j : Nat)
    (hj : j ∈ (scanLocalGo sid total m i l).slowIdx) :
    ∃ f, l.get? (j - i) = some f ∧ i ≤ j ∧
      fingerprintOk (jsGet m ⟨sid, f.name⟩) f = false := by
  induction l generalizing i with
  | nil => simp [scanLocalGo] at hj
  | cons f rest ih =>
    simp only [scanLocalGo] at hj
    have hstep : j ∈ (scanLocalGo sid total m (i + 1) rest).slowIdx →
        ∃ g, (f :: rest).get? (j - i) = some g ∧ i ≤ j ∧
          fingerprintOk (jsGet m ⟨sid, g.name⟩) g = false := by
      intro hj2
      obtain ⟨f', hf', hle, hfp'⟩ := ih (i + 1) hj2
      refine ⟨f', ?_, by omega, hfp'⟩
      have : j - i = (j - (i + 1)) + 1 := by omega
      rw [this]
      simpa using hf'
    cases hget : jsGet m ⟨sid, f.name⟩ with
    | none =>
      rw [hget, show fingerprintOk none f = false from rfl] at hj
      simp only [Bool.false_eq_true, if_false, List.mem_cons] at hj
      rcases hj with rfl | hj
      · exact ⟨f, by simp, le_refl _, by rw [hget]; rfl⟩
      · exact hstep hj
    | some e =>
      rw [hget] at hj
      by_cases hfp : fingerprintOk (some e) f
      · rw [hfp] at hj
        simp only [if_true] at hj
        exact hstep hj
      · simp only [Bool.not_eq_true] at hfp
        rw [hfp] at hj
        simp only [Bool.false_eq_true, if_false, List.mem_cons] at hj
        rcases hj with rfl | hj
        · exact ⟨f, by simp, le_refl _, by rw [hget]; exact hfp⟩
        · exact hstep hj

/-- Values of any per-source partition built by `buildMaps` are inventory
records of that source. -/
theorem buildMaps_bySource_mem (pics : List Picture) (s : Nat)
    (e : Key × Picture) (he : e ∈ (jsGet (buildMaps pics).2 s).getD []) :
    e.2 ∈ pics ∧ e.2.sourceId = s := by
  suffices h : ∀ (l : List Picture)
      (acc : List (Key × Picture) × List (Nat × List (Key × Picture))),
      (∀ s' e', e' ∈ (jsGet acc.2 s').getD [] →
        e'.2 ∈ pics ∧ e'.2.sourceId = s') →
      (∀ p ∈ l, p ∈ pics) →
      ∀ s' e', e' ∈ (jsGet (l.foldl buildStep acc).2 s').getD [] →
        e'.2 ∈ pics ∧ e'.2.sourceId = s' by
    exact h pics ([], []) (by intro s' e' he'; simp [jsGet] at he')
      (fun p hp => hp) s e he
  intro l
  induction l with
  | nil =>
    intro acc hacc _ s' e' he'
    exact hacc s' e' he'
  | cons p rest ih =>
    intro acc hacc hsub s' e' he'
    refine ih (buildStep acc p) ?_
      (fun q hq => hsub q (List.mem_cons_of_mem _ hq)) s' e' he'
    intro s'' e'' he''
    unfold buildStep at he''
    by_cases hz : p.sourceId = 0
    · simp only [hz, if_true] at he''
      exact hacc s'' e'' he''
    · simp only [hz, if_false] at he''
      by_cases hs : s'' = p.sourceId
      · subst hs
        rw [jsGet_jsSet] at he''
        simp only [if_pos rfl, Option.getD_some] at he''
        rcases mem_jsSet he'' with h1 | h1
        · have heq : e'' = (keyOfPic p, p) := h1
          rw [heq]
          exact ⟨hsub p (List.mem_cons_self ..), rfl⟩
        · exact hacc _ e'' h1
      · rw [jsGet_jsSet] at he''
        simp only [if_neg hs] at he''
        exact hacc _ e'' he''

/-- **C1.**  Scope isolation of reconciliation: every id in the `deletes`
list of a reconciliation pass belongs to an existing record whose source id
is in the scan scope — records of sources outside the scope are never
proposed for deletion, whatever the walkers observe. -/
theorem reconcile_scope_isolation (resolveUrl : String → String → String)
    (now : Int) (sources : List SourceIn) (existingPictures : List Picture)
    (sourceIdsToScan : List Nat) (d : Nat)
    (hd : d ∈ (reconcile resolveUrl now sources existingPictures
      sourceIdsToScan).deletes) :
    ∃ p ∈ existingPictures, p.id = d ∧ p.sourceId ∈ sourceIdsToScan := by
  have key : ∀ (l : List SourceIn) (acc : RecResult),
      (∀ d', d' ∈ acc.deletes →
        ∃ p ∈ existingPictures, p.id = d' ∧ p.sourceId ∈ sourceIdsToScan) →
      ∀ d', d' ∈ (l.foldl (reconcileStep resolveUrl now
        (buildMaps existingPictures) sourceIdsToScan) acc).deletes →
      ∃ p ∈ existingPictures, p.id = d' ∧ p.sourceId ∈ sourceIdsToScan := by
    intro l
    induction l with
    | nil => intro acc hacc d' hd'; exact hacc d' hd'
    | cons s rest ih =>
      intro acc hacc d' hd'
      refine ih (reconcileStep resolveUrl now (buildMaps existingPictures)
        sourceIdsToScan acc s) ?_ d' hd'
      intro d'' hd''
      unfold reconcileStep at hd''
      by_cases hz : s.id = 0
      · simp only [hz, if_true] at hd''
        exact hacc d'' hd''
      · simp only [hz, if_false] at hd''
        rcases List.mem_append.mp hd'' with h1 | h1
        · exact hacc d'' h1
        · by_cases hscope : s.id ∈ sourceIdsToScan
          · rw [if_pos hscope] at h1
            unfold sourceDeletes at h1
            obtain ⟨e, he, rfl⟩ := List.mem_map.mp h1
            have hmem := List.mem_of_mem_filter he
            obtain ⟨hp, hsid⟩ :=
              buildMaps_bySource_mem existingPictures s.id e hmem
            exact ⟨e.2, hp, rfl, hsid ▸ hscope⟩
          · rw [if_neg hscope] at h1
            simp at h1
  exact key sources ⟨[], [], [], [0]⟩ (by intro d' hd'; simp at hd') d hd

/-- **C1, witness**: one local source (id 1) whose walk sees nothing, an
inventory with a record of source 1 (deleted: in scope and unseen); the
theorem locates the record inside the scope. -/
theorem reconcile_scope_isolation_witness :
    (7 ∈ (reconcile (fun _ u => u) 0
        [⟨1, "S", SourceKind.localFolder []⟩]
        [⟨7, 1, "a.jpg", none, 1, some 10, none, none, none⟩] [1]).deletes) ∧
      ∃ p ∈ [(⟨7, 1, "a.jpg", none, 1, some 10, none, none, none⟩ : Picture)],
        p.id = 7 ∧ p.sourceId ∈ [1] :=
  ⟨by decide,
    reconcile_scope_isolation (fun _ u => u) 0
      [⟨1, "S", SourceKind.localFolder []⟩]
      [⟨7, 1, "a.jpg", none, 1, some 10, none, none, none⟩] [1] 7 (by decide)⟩

/-! ## C8 — fingerprint short-circuit -/

/-- **C8.**  A local file whose (last-modified, size) fingerprint matches the
stored record takes the fast path: its index is not among the slow-path
indices (so no dimension decode and no EXIF extraction happen for it), its
key still enters the seen set, every emission (add or update) corresponds to
a slow-path index, and every emitted add/update originates from some file
whose fingerprint did **not** match. -/
theorem fingerprint_short_circuit (sid : Nat) (files : List FileInfo)
    (m : List (Key × Picture)) (i : Nat) (f : FileInfo)
    (hi : files.get? i = some f) (e : Picture)
    (he : jsGet m ⟨sid, f.name⟩ = some e)
    (hmod : e.modified = f.lastModified) (hsz : e.size = some f.size) :
    i ∉ (scanLocalSource sid files m).slowIdx ∧
      (⟨sid, f.name⟩ : Key) ∈ (scanLocalSource sid files m).seenKeys ∧
      (scanLocalSource sid files m).adds.length +
          (scanLocalSource sid files m).updates.length =
        (scanLocalSource sid files m).slowIdx.length ∧
      (∀ d ∈ (scanLocalSource sid files m).adds, ∃ f' ∈ files,
        fingerprintOk (jsGet m ⟨sid, f'.name⟩) f' = false ∧
          d = localData sid f') ∧
      (∀ u ∈ (scanLocalSource sid files m).updates, ∃ f' ∈ files, ∃ e',
        jsGet m ⟨sid, f'.name⟩ = some e' ∧
          fingerprintOk (some e') f' = false ∧
          u = (localData sid f').withId e'.id) := by
  have hfp : fingerprintOk (jsGet m ⟨sid, f.name⟩) f = true := by
    rw [he]
    unfold fingerprintOk
    simp [hmod, hsz]
  refine ⟨?_, ?_, scanLocalGo_counts sid files.length m 0 files, ?_, ?_⟩
  · intro hcontra
    obtain ⟨g, hg, _, hfg⟩ :=
      scanLocalGo_slow sid files.length m 0 files i hcontra
    rw [Nat.sub_zero, hi] at hg
    obtain rfl := Option.some.injEq .. ▸ hg
    rw [hfp] at hfg
    exact Bool.true_eq_false ▸ hfg
  · rw [scanLocalSource, scanLocalGo_seen]
    exact List.mem_map.mpr ⟨f, List.get?_mem hi, rfl⟩
  · intro d hd
    rw [scanLocalSource, scanLocalGo_adds] at hd
    obtain ⟨f', hf', heq⟩ := List.mem_filterMap.mp hd
    by_cases hg : jsGet m ⟨sid, f'.name⟩ = none
    · rw [if_pos hg] at heq
      refine ⟨f', hf', ?_, (Option.some.injEq .. ▸ heq).symm⟩
      rw [hg]
      rfl
    · rw [if_neg hg] at heq
      exact absurd heq (by simp)
  · intro u hu
    rw [scanLocalSource, scanLocalGo_updates] at hu
    obtain ⟨f', hf', hequ⟩ := List.mem_filterMap.mp hu
    cases hg : jsGet m ⟨sid, f'.name⟩ with
    | none => rw [hg] at hequ; exact absurd hequ (by simp)
    | some e' =>
      rw [hg] at hequ
      dsimp only at hequ
      by_cases hfp' : fingerprintOk (some e') f'
      · rw [if_pos hfp'] at hequ
        exact absurd hequ (by simp)
      · rw [if_neg hfp'] at hequ
        simp only [Bool.not_eq_true] at hfp'
        exact ⟨f', hf', e', hg, hfp', (Option.some.injEq .. ▸ hequ).symm⟩

/-- Inputs of the C8 witness: one matched file, one changed file. -/
def c8files : List FileInfo :=
  [⟨"a.jpg", 5, 10, 3, 3, none⟩, ⟨"b.jpg", 9, 20, 3, 3, none⟩]

def c8map : List (Key × Picture) :=
  [(⟨1, "a.jpg"⟩, ⟨4, 1, "a.jpg", none, 5, some 10, none, none, none⟩)]

/-- **C8, witness**: the matched file's index 0 takes the fast path and its
key is still seen. -/
theorem fingerprint_short_circuit_witness :
    0 ∉ (scanLocalSource 1 c8files c8map).slowIdx ∧
      (⟨1, "a.jpg"⟩ : Key) ∈ (scanLocalSource 1 c8files c8map).seenKeys :=
  ⟨(fingerprint_short_circuit 1 c8files c8map 0 ⟨"a.jpg", 5, 10, 3, 3, none⟩
      (by decide) ⟨4, 1, "a.jpg", none, 5, some 10, none, none, none⟩
      (by decide) (by decide) (by decide)).1,
    (fingerprint_short_circuit 1 c8files c8map 0 ⟨"a.jpg", 5, 10, 3, 3, none⟩
      (by decide) ⟨4, 1, "a.jpg", none, 5, some 10, none, none, none⟩
      (by decide) (by decide) (by decide)).2.1⟩

/-! ## C9 — progress monotonicity -/

theorem scanLocalGo_progress_cons (sid n : Nat) (m : List (Key × Picture))
    (i : Nat) (f : FileInfo) (rest : List FileInfo) :
    (scanLocalGo sid n m i (f :: rest)).progress =
      (if i % 20 = 0 then [(i : ℚ) / (n : ℚ) * 100] else []) ++
        (scanLocalGo sid n m (i + 1) rest).progress := by
  simp only [scanLocalGo]
  cases hget : jsGet m ⟨sid, f.name⟩ with
  | none =>
    rw [show fingerprintOk none f = false from rfl]
    simp
  | some e =>
    by_cases hfp : fingerprintOk (some e) f
    · simp [hfp]
    · simp only [Bool.not_eq_true] at hfp
      simp [hfp]

theorem scanLocalGo_progress_mem (sid n : Nat) (m : List (Key × Picture))
    (i : Nat) (l : List FileInfo) (x : ℚ)
    (hx : x ∈ (scanLocalGo sid n m i l).progress) :
    ∃ j, i ≤ j ∧ j < i + l.length ∧ x = (j : ℚ) / (n : ℚ) * 100 := by
  induction l generalizing i with
  | nil => simp [scanLocalGo] at hx
  | cons f rest ih =>
    rw [scanLocalGo_progress_cons] at hx
    rcases List.mem_append.mp hx with h | h
    · by_cases hi : i % 20 = 0
      · rw [if_pos hi] at h
        simp only [List.mem_singleton] at h
        exact ⟨i, le_refl i, by simp, h⟩
      · rw [if_neg hi] at h
        simp at h
    · obtain ⟨j, h1, h2, h3⟩ := ih (i + 1) h
      exact ⟨j, by omega, by simp only [List.length_cons]; omega, h3⟩

theorem progressVal_mono (n a b : Nat) (hab : a ≤ b) :
    (a : ℚ) / (n : ℚ) * 100 ≤ (b : ℚ) / (n : ℚ) * 100 := by
  rcases Nat.eq_zero_or_pos n with hn | hn
  · subst hn
    norm_num
  · have hn' : (0 : ℚ) < (n : ℚ) := by exact_mod_cast hn
    have hq : (a : ℚ) ≤ (b : ℚ) := by exact_mod_cast hab
    have hdiv : (a : ℚ) / (n : ℚ) ≤ (b : ℚ) / (n : ℚ) :=
      (div_le_div_iff_of_pos_right hn').mpr hq
    exact mul_le_mul_of_nonneg_right hdiv (by norm_num)

theorem scanLocalGo_progress_pairwise (sid n : Nat)
    (m : List (Key × Picture)) (i : Nat) (l : List FileInfo) :
    List.Pairwise (· ≤ ·) (scanLocalGo sid n m i l).progress := by
  induction l generalizing i with
  | nil => simp [scanLocalGo]
  | cons f rest ih =>
    rw [scanLocalGo_progress_cons]
    rw [List.pairwise_append]
    refine ⟨?_, ih (i + 1), ?_⟩
    · by_cases hi : i % 20 = 0 <;> simp [hi]
    · intro a ha b hb
      by_cases hi : i % 20 = 0
      · rw [if_pos hi] at ha
        simp only [List.mem_singleton] at ha
        obtain ⟨j, hj1, _, hj3⟩ := scanLocalGo_progress_mem sid n m _ _ b hb
        rw [ha, hj3]
        exact progressVal_mono n i j (by omega)
      · rw [if_neg hi] at ha
        simp at ha

theorem progressVal_nonneg (n a : Nat) : (0 : ℚ) ≤ (a : ℚ) / (n : ℚ) * 100 := by
  positivity

theorem progressVal_le_100 (n a : Nat) (h : a < n) :
    (a : ℚ) / (n : ℚ) * 100 ≤ 100 := by
  have hn : 0 < n := lt_of_le_of_lt (Nat.zero_le a) h
  have hn' : (0 : ℚ) < (n : ℚ) := by exact_mod_cast hn
  have h1 : (a : ℚ) / (n : ℚ) ≤ 1 := by
    rw [div_le_one hn']
    exact_mod_cast h.le
  calc (a : ℚ) / (n : ℚ) * 100 ≤ 1 * 100 :=
    mul_le_mul_of_nonneg_right h1 (by norm_num)
  _ = 100 := by norm_num

/-- **C9, counterexample.**  The claim says the progress values of a single
reconciliation pass are monotonically increasing from 0 to 100.  A remote
source crawled for ten pages posts `(page % 10) * 10`, which wraps to 0 at
page 10 after having reported 90 — the sequence
`[0, 10, …, 90, 0, 10, 100]` is not monotone.  (A pass over several local
sources likewise restarts at 0 for each source.) -/
theorem progress_not_monotone_counterexample :
    ¬ List.Pairwise (· ≤ ·) ((reconcile (fun _ u => u) 0
      [⟨1, "R", SourceKind.remoteApi ⟨none, none⟩
        (List.replicate 10 (PageResult.ok [⟨"u", "n", some 1⟩]))⟩]
      [] [1]).progress) := by
  decide

/-- **C9, amended.**  For a pass over a single local source, the emitted
progress sequence is weakly monotone: it starts at 0, every per-file report
`(index / total) · 100` is non-decreasing and stays within `[0, 100]`, and
the sequence ends at 100.  With several sources, or a remote source crawled
past ten pages, the sequence restarts (counterexample). -/
theorem reconcile_progress_single_local (resolveUrl : String → String → String)
    (now : Int) (sid : Nat) (nm : String) (files : List FileInfo)
    (pics : List Picture) (scope : List Nat) (hsid : sid ≠ 0) :
    List.Pairwise (· ≤ ·)
        ((reconcile resolveUrl now [⟨sid, nm, SourceKind.localFolder files⟩]
          pics scope).progress) ∧
      ((reconcile resolveUrl now [⟨sid, nm, SourceKind.localFolder files⟩]
          pics scope).progress).head? = some 0 ∧
      ((reconcile resolveUrl now [⟨sid, nm, SourceKind.localFolder files⟩]
          pics scope).progress).getLast? = some 100 := by
  have hprog : (reconcile resolveUrl now
      [⟨sid, nm, SourceKind.localFolder files⟩] pics scope).progress =
      ([0] ++
        (scanLocalGo sid files.length (buildMaps pics).1 0 files).progress) ++
        [100] := by
    simp [reconcile, reconcileStep, walkOf, scanLocalSource, hsid]
  rw [hprog]
  have hmem100 : ∀ x ∈ (scanLocalGo sid files.length (buildMaps pics).1 0
      files).progress, 0 ≤ x ∧ x ≤ 100 := by
    intro x hx
    obtain ⟨j, _, hj2, hj3⟩ :=
      scanLocalGo_progress_mem sid files.length (buildMaps pics).1 0 files x hx
    subst hj3
    exact ⟨progressVal_nonneg _ j, progressVal_le_100 _ j (by omega)⟩
  refine ⟨?_, ?_, ?_⟩
  · rw [List.pairwise_append]
    refine ⟨?_, by simp, ?_⟩
    · rw [List.pairwise_append]
      refine ⟨by simp, scanLocalGo_progress_pairwise .., ?_⟩
      intro a ha b hb
      simp only [List.mem_singleton] at ha
      rw [ha]
      exact (hmem100 b hb).1
    · intro a ha b hb
      simp only [List.mem_singleton] at hb
      rw [hb]
      rcases List.mem_append.mp ha with h | h
      · rw [List.mem_singleton.mp h]
        norm_num
      · exact (hmem100 a h).2
  · rfl
  · rw [List.getLast?_concat]

/-- **C9, witness** for the amended theorem: one local source with one
changed file; the sequence `[0, 0, 100]` is monotone from 0 to 100. -/
theorem reconcile_progress_single_local_witness :
    List.Pairwise (· ≤ ·)
        ((reconcile (fun _ u => u) 0
          [⟨1, "S", SourceKind.localFolder [⟨"a.jpg", 1, 10, 5, 5, none⟩]⟩]
          [] [1]).progress) ∧
      ((reconcile (fun _ u => u) 0
          [⟨1, "S", SourceKind.localFolder [⟨"a.jpg", 1, 10, 5, 5, none⟩]⟩]
          [] [1]).progress).head? = some 0 ∧
      ((reconcile (fun _ u => u) 0
          [⟨1, "S", SourceKind.localFolder [⟨"a.jpg", 1, 10, 5, 5, none⟩]⟩]
          [] [1]).progress).getLast? = some 100 :=
  reconcile_progress_single_local (fun _ u => u) 0 1 "S"
    [⟨"a.jpg", 1, 10, 5, 5, none⟩] [] [1] (by decide)


/-! ## C5 — reconciliation idempotence -/

/-- **C5, counterexample.**  The v2 walker keys local files by
`` `${sourceId}|${name}` `` only, so a folder holding two files with the same
name (in different subfolders, scanned with `includeSubfolders`) makes the
second entry shadow the first: run 1 adds both records under one key, and
run 2 still finds the stored fingerprint of one file differing from the
other file's fingerprint, emitting an update again. -/
theorem reconcile_not_idempotent_counterexample :
    (reconcile (fun _ u => u) 0
        [⟨1, "S", SourceKind.localFolder
          [⟨"a.jpg", 1, 10, 5, 5, none⟩, ⟨"a.jpg", 2, 20, 6, 6, none⟩]⟩]
        (applyChangeset []
          (reconcile (fun _ u => u) 0
            [⟨1, "S", SourceKind.localFolder
              [⟨"a.jpg", 1, 10, 5, 5, none⟩, ⟨"a.jpg", 2, 20, 6, 6, none⟩]⟩]
            [] [1])
          [1, 2])
        [1]).updates ≠ [] := by decide

/-- Key of an `adds` payload, as `self.onmessage` would key the record after
insertion. -/
def keyOfData (d : PictureData) : Key :=
  ⟨d.sourceId, d.pathUrl.getD d.name⟩

theorem keyOfPic_withId (d : PictureData) (n : Nat) :
    keyOfPic (d.withId n) = keyOfData d := rfl

theorem keyOfData_localData (sid : Nat) (f : FileInfo) :
    keyOfData (localData sid f) = ⟨sid, f.name⟩ := rfl

theorem jsGet_append_none {K V : Type} [DecidableEq K]
    {l₁ l₂ : List (K × V)} {k : K} (h : jsGet l₁ k = none) :
    jsGet (l₁ ++ l₂) k = jsGet l₂ k := by
  induction l₁ with
  | nil => simp
  | cons e rest ih =>
    obtain ⟨k0, v0⟩ := e
    by_cases h0 : k0 = k
    · simp [jsGet, h0] at h
    · simp only [jsGet, h0, if_false] at h
      simpa [jsGet, h0] using ih h

theorem jsGet_append_some {K V : Type} [DecidableEq K]
    {l₁ l₂ : List (K × V)} {k : K} {v : V} (h : jsGet l₁ k = some v) :
    jsGet (l₁ ++ l₂) k = some v := by
  induction l₁ with
  | nil => simp [jsGet] at h
  | cons e rest ih =>
    obtain ⟨k0, v0⟩ := e
    by_cases h0 : k0 = k
    · simp only [jsGet, h0, if_true] at h
      simp [jsGet, h0, h]
    · simp only [jsGet, h0, if_false] at h
      simpa [jsGet, h0] using ih h

theorem find?_eq_some_of_unique {α : Type} (l : List α) (pred : α → Bool)
    (u : α) (hu : u ∈ l) (hpu : pred u = true)
    (huniq : ∀ v ∈ l, pred v = true → v = u) : l.find? pred = some u := by
  induction l with
  | nil => simp at hu
  | cons a rest ih =>
    by_cases ha : pred a = true
    · have : a = u := huniq a (List.mem_cons_self ..) ha
      subst this
      simp [List.find?_cons_of_pos _ ha]
    · have hau : a ≠ u := fun h => ha (h ▸ hpu)
      rcases List.mem_cons.mp hu with h | h
      · exact absurd h.symm hau
      · rw [List.find?_cons_of_neg _ ha]
        exact ih h (fun v hv hp => huniq v (List.mem_cons_of_mem _ hv) hp)

theorem mem_zipWith_left {α β γ : Type} (f : α → β → γ) :
    ∀ (l₁ : List α) (l₂ : List β), l₁.length = l₂.length →
      ∀ a ∈ l₁, ∃ b ∈ l₂, f a b ∈ List.zipWith f l₁ l₂ := by
  intro l₁
  induction l₁ with
  | nil => intro l₂ _ a ha; simp at ha
  | cons x rest ih =>
    intro l₂ hlen a ha
    cases l₂ with
    | nil => simp at hlen
    | cons y l₂r =>
      rcases List.mem_cons.mp ha with rfl | ha
      · exact ⟨y, List.mem_cons_self .., by simp [List.zipWith]⟩
      · obtain ⟨b, hb, hmem⟩ := ih l₂r (by simpa using hlen) a ha
        exact ⟨b, List.mem_cons_of_mem _ hb,
          by simpa [List.zipWith] using Or.inr hmem⟩

theorem of_mem_zipWith {α β γ : Type} {f : α → β → γ} :
    ∀ {l₁ : List α} {l₂ : List β} {c : γ}, c ∈ List.zipWith f l₁ l₂ →
      ∃ a ∈ l₁, ∃ b ∈ l₂, c = f a b := by
  intro l₁
  induction l₁ with
  | nil => intro l₂ c hc; simp [List.zipWith] at hc
  | cons x rest ih =>
    intro l₂ c hc
    cases l₂ with
    | nil => simp [List.zipWith] at hc
    | cons y l₂r =>
      rcases List.mem_cons.mp (by simpa [List.zipWith] using hc) with rfl | hc2
      · exact ⟨x, List.mem_cons_self .., y, List.mem_cons_self .., rfl⟩
      · obtain ⟨a, ha, b, hb, rfl⟩ := ih hc2
        exact ⟨a, List.mem_cons_of_mem _ ha, b, List.mem_cons_of_mem _ hb, rfl⟩

theorem map_zipWith_left {α β γ δ : Type} (f : α → β → γ) (g : γ → δ)
    (h : α → δ) (hc : ∀ a b, g (f a b) = h a) :
    ∀ (l₁ : List α) (l₂ : List β), l₁.length = l₂.length →
      (List.zipWith f l₁ l₂).map g = l₁.map h := by
  intro l₁
  induction l₁ with
  | nil => intro l₂ _; simp
  | cons x rest ih =>
    intro l₂ hlen
    cases l₂ with
    | nil => simp at hlen
    | cons y l₂r =>
      simp only [List.zipWith, List.map_cons, hc]
      rw [ih l₂r (by simpa using hlen)]

theorem map_filterMap_sublist {α β γ : Type} (l : List α) (g : α → Option β)
    (h : β → γ) (h' : α → γ) (hc : ∀ a b, g a = some b → h b = h' a) :
    ((l.filterMap g).map h).Sublist (l.map h') := by
  induction l with
  | nil => simp
  | cons a rest ih =>
    rw [List.filterMap_cons]
    cases hga : g a with
    | none => exact List.Sublist.cons _ ih
    | some b =>
      rw [List.map_cons, List.map_cons, hc a b hga]
      exact List.Sublist.cons₂ _ ih

/-- With pairwise-distinct record keys, the global map built by
`self.onmessage` is exactly the nonzero-source inventory keyed by
`keyOfPic` (each `set` hits a fresh key and appends). -/
theorem buildMaps_fst_go :
    ∀ (l : List Picture)
      (acc : List (Key × Picture) × List (Nat × List (Key × Picture))),
      (l.map keyOfPic).Nodup →
      (∀ p ∈ l, p.sourceId ≠ 0 → jsGet acc.1 (keyOfPic p) = none) →
      (l.foldl buildStep acc).1 =
        acc.1 ++ (l.filter (fun p => decide (p.sourceId ≠ 0))).map
          (fun p => (keyOfPic p, p)) := by
  intro l
  induction l with
  | nil => intro acc _ _; simp
  | cons p rest ih =>
    intro acc hn hget
    simp only [List.map_cons, List.nodup_cons] at hn
    by_cases hz : p.sourceId = 0
    · rw [List.foldl_cons, show buildStep acc p = acc by simp [buildStep, hz]]
      rw [ih acc hn.2
        (fun q hq hqz => hget q (List.mem_cons_of_mem _ hq) hqz)]
      congr 1
      rw [List.filter_cons]
      simp [hz]
    · have hnone : jsGet acc.1 (keyOfPic p) = none :=
        hget p (List.mem_cons_self ..) hz
      have hstep1 : (buildStep acc p).1 = acc.1 ++ [(keyOfPic p, p)] := by
        simp only [buildStep, hz, if_false]
        exact jsSet_eq_append p hnone
      rw [List.foldl_cons, ih (buildStep acc p) hn.2 ?_, hstep1]
      · rw [List.filter_cons]
        simp [hz, List.append_assoc]
      · intro q hq hqz
        rw [hstep1, jsGet_append_none (hget q (List.mem_cons_of_mem _ hq) hqz)]
        have hne : keyOfPic p ≠ keyOfPic q := by
          intro he
          exact hn.1 (he ▸ List.mem_map.mpr ⟨q, hq, rfl⟩)
        simp [jsGet, hne]

theorem buildMaps_fst_eq (pics : List Picture)
    (hkeys : (pics.map keyOfPic).Nodup) :
    (buildMaps pics).1 =
      (pics.filter (fun p => decide (p.sourceId ≠ 0))).map
        (fun p => (keyOfPic p, p)) := by
  unfold buildMaps
  rw [buildMaps_fst_go pics ([], []) hkeys (by intro p _ _; simp [jsGet])]
  simp

theorem jsGet_buildMaps_some (pics : List Picture)
    (hkeys : (pics.map keyOfPic).Nodup) (k : Key) (p : Picture) :
    jsGet (buildMaps pics).1 k = some p ↔
      p ∈ pics ∧ p.sourceId ≠ 0 ∧ keyOfPic p = k := by
  rw [buildMaps_fst_eq pics hkeys]
  constructor
  · intro h
    have hmem := jsGet_mem h
    obtain ⟨q, hq, heq⟩ := List.mem_map.mp hmem
    obtain ⟨h1, h2⟩ := Prod.mk.injEq .. ▸ heq
    subst h2
    have hq2 := List.mem_filter.mp hq
    exact ⟨hq2.1, by simpa using hq2.2, h1⟩
  · rintro ⟨hp, hz, rfl⟩
    apply jsGet_eq_some_of_nodup
    · have hsub : ((pics.filter (fun p => decide (p.sourceId ≠ 0))).map
          (fun p => (keyOfPic p, p))).map Prod.fst =
          (pics.filter (fun p => decide (p.sourceId ≠ 0))).map keyOfPic := by
        simp [List.map_map, Function.comp]
      rw [hsub]
      exact ((List.filter_sublist pics).map keyOfPic).nodup hkeys
    · exact List.mem_map.mpr
        ⟨p, List.mem_filter.mpr ⟨hp, by simpa using hz⟩, rfl⟩

theorem jsGet_buildMaps_none (pics : List Picture)
    (hkeys : (pics.map keyOfPic).Nodup) (k : Key) :
    jsGet (buildMaps pics).1 k = none ↔
      ∀ p ∈ pics, p.sourceId ≠ 0 → keyOfPic p ≠ k := by
  rw [buildMaps_fst_eq pics hkeys, jsGet_eq_none]
  constructor
  · intro h p hp hz hk
    exact h (keyOfPic p, p)
      (List.mem_map.mpr ⟨p, List.mem_filter.mpr ⟨hp, by simpa using hz⟩, rfl⟩)
      hk
  · rintro h e he
    obtain ⟨q, hq, rfl⟩ := List.mem_map.mp he
    have hq2 := List.mem_filter.mp hq
    exact h q hq2.1 (by simpa using hq2.2)

/-- With pairwise-distinct record keys, each per-source partition built by
`self.onmessage` is exactly that source's sub-inventory keyed by
`keyOfPic`. -/
theorem buildMaps_snd_go :
    ∀ (l processed : List Picture)
      (acc : List (Key × Picture) × List (Nat × List (Key × Picture))),
      ((processed ++ l).map keyOfPic).Nodup →
      (∀ s, s ≠ 0 → (jsGet acc.2 s).getD [] =
        (processed.filter (fun p => decide (p.sourceId = s))).map
          (fun p => (keyOfPic p, p))) →
      ∀ s, s ≠ 0 → (jsGet (l.foldl buildStep acc).2 s).getD [] =
        ((processed ++ l).filter (fun p => decide (p.sourceId = s))).map
          (fun p => (keyOfPic p, p)) := by
  intro l
  induction l with
  | nil =>
    intro processed acc hn hacc s hs
    simpa using hacc s hs
  | cons p rest ih =>
    intro processed acc hn hacc s hs
    have hassoc : processed ++ p :: rest = (processed ++ [p]) ++ rest := by
      simp
    rw [List.foldl_cons, hassoc]
    by_cases hz : p.sourceId = 0
    · rw [show buildStep acc p = acc by simp [buildStep, hz]]
      refine ih (processed ++ [p]) acc (by rw [← hassoc]; exact hn) ?_ s hs
      intro s' hs'
      rw [hacc s' hs', List.filter_append]
      have : [p].filter (fun q => decide (q.sourceId = s')) = [] := by
        simp [List.filter_cons, hz, Ne.symm hs']
      rw [this, List.append_nil]
    · refine ih (processed ++ [p]) (buildStep acc p)
        (by rw [← hassoc]; exact hn) ?_ s hs
      intro s' hs'
      have hsubnone : jsGet ((jsGet acc.2 p.sourceId).getD [])
          (keyOfPic p) = none := by
        rw [jsGet_eq_none]
        intro e he hke
        rw [hacc p.sourceId hz] at he
        obtain ⟨q, hq, rfl⟩ := List.mem_map.mp he
        have hqmem := (List.mem_filter.mp hq).1
        have hn' := hn
        rw [List.map_append] at hn'
        have hdisj := List.disjoint_of_nodup_append hn'
        exact hdisj (List.mem_map.mpr ⟨q, hqmem, hke⟩)
          (List.mem_map.mpr ⟨p, List.mem_cons_self .., rfl⟩)
      have hstep2 : (buildStep acc p).2 = jsSet acc.2 p.sourceId
          (jsSet ((jsGet acc.2 p.sourceId).getD []) (keyOfPic p) p) := by
        simp [buildStep, hz]
      rw [hstep2, jsGet_jsSet]
      by_cases hsp : s' = p.sourceId
      · subst hsp
        rw [if_pos rfl, Option.getD_some,
          jsSet_eq_append p hsubnone, hacc p.sourceId hz, List.filter_append]
        have : [p].filter (fun q => decide (q.sourceId = p.sourceId)) = [p] := by
          simp [List.filter_cons]
        rw [this]
        simp
      · rw [if_neg hsp, hacc s' hs', List.filter_append]
        have : [p].filter (fun q => decide (q.sourceId = s')) = [] := by
          simp [List.filter_cons]
          intro h
          exact absurd h.symm hsp
        rw [this, List.append_nil]

theorem buildMaps_snd_eq (pics : List Picture)
    (hkeys : (pics.map keyOfPic).Nodup) (s : Nat) (hs : s ≠ 0) :
    (jsGet (buildMaps pics).2 s).getD [] =
      (pics.filter (fun p => decide (p.sourceId = s))).map
        (fun p => (keyOfPic p, p)) := by
  unfold buildMaps
  have := buildMaps_snd_go pics [] ([], []) (by simpa using hkeys)
    (by intro s' _; simp [jsGet]) s hs
  simpa using this

/-- The per-source scan loop, flattened per field. -/
theorem reconcile_fold_fields (resolveUrl : String → String → String)
    (now : Int)
    (maps : List (Key × Picture) × List (Nat × List (Key × Picture)))
    (scope : List Nat) :
    ∀ (l : List SourceIn) (acc : RecResult),
      l.foldl (reconcileStep resolveUrl now maps scope) acc =
        ⟨acc.adds ++ (l.map (fun s => if s.id = 0 then []
            else (walkOf resolveUrl now maps.1 s).adds)).flatten,
          acc.updates ++ (l.map (fun s => if s.id = 0 then []
            else (walkOf resolveUrl now maps.1 s).updates)).flatten,
          acc.deletes ++ (l.map (fun s => if s.id = 0 then []
            else if s.id ∈ scope then
              sourceDeletes maps.2 s.id (walkOf resolveUrl now maps.1 s).seenKeys
            else [])).flatten,
          acc.progress ++ (l.map (fun s => if s.id = 0 then []
            else (walkOf resolveUrl now maps.1 s).progress)).flatten⟩ := by
  intro l
  induction l with
  | nil => intro acc; cases acc; simp
  | cons s rest ih =>
    intro acc
    rw [List.foldl_cons, ih]
    by_cases hz : s.id = 0
    · rw [show reconcileStep resolveUrl now maps scope acc s = acc by
        simp [reconcileStep, hz]]
      simp [hz]
    · by_cases hscope : s.id ∈ scope
      · rw [show reconcileStep resolveUrl now maps scope acc s =
            ⟨acc.adds ++ (walkOf resolveUrl now maps.1 s).adds,
              acc.updates ++ (walkOf resolveUrl now maps.1 s).updates,
              acc.deletes ++ sourceDeletes maps.2 s.id
                (walkOf resolveUrl now maps.1 s).seenKeys,
              acc.progress ++ (walkOf resolveUrl now maps.1 s).progress⟩ by
          simp [reconcileStep, hz, hscope]]
        simp [hz, hscope, List.append_assoc]
      · rw [show reconcileStep resolveUrl now maps scope acc s =
            ⟨acc.adds ++ (walkOf resolveUrl now maps.1 s).adds,
              acc.updates ++ (walkOf resolveUrl now maps.1 s).updates,
              acc.deletes,
              acc.progress ++ (walkOf resolveUrl now maps.1 s).progress⟩ by
          simp [reconcileStep, hz, hscope]]
        simp [hz, hscope, List.append_assoc]

theorem reconcile_adds_eq (resolveUrl : String → String → String) (now : Int)
    (sources : List SourceIn) (pics : List Picture) (scope : List Nat) :
    (reconcile resolveUrl now sources pics scope).adds =
      (sources.map (fun s => if s.id = 0 then []
        else (walkOf resolveUrl now (buildMaps pics).1 s).adds)).flatten := by
  show (let maps := buildMaps pics;
    let r := List.foldl (reconcileStep resolveUrl now maps scope)
      ⟨[], [], [], [0]⟩ sources;
    ({ r with progress := r.progress ++ [100] } : RecResult)).adds = _
  simp only [reconcile_fold_fields]
  simp

theorem reconcile_updates_eq (resolveUrl : String → String → String)
    (now : Int) (sources : List SourceIn) (pics : List Picture)
    (scope : List Nat) :
    (reconcile resolveUrl now sources pics scope).updates =
      (sources.map (fun s => if s.id = 0 then []
        else (walkOf resolveUrl now (buildMaps pics).1 s).updates)).flatten := by
  show (let maps := buildMaps pics;
    let r := List.foldl (reconcileStep resolveUrl now maps scope)
      ⟨[], [], [], [0]⟩ sources;
    ({ r with progress := r.progress ++ [100] } : RecResult)).updates = _
  simp only [reconcile_fold_fields]
  simp

theorem reconcile_deletes_eq (resolveUrl : String → String → String)
    (now : Int) (sources : List SourceIn) (pics : List Picture)
    (scope : List Nat) :
    (reconcile resolveUrl now sources pics scope).deletes =
      (sources.map (fun s => if s.id = 0 then []
        else if s.id ∈ scope then
          sourceDeletes (buildMaps pics).2 s.id
            (walkOf resolveUrl now (buildMaps pics).1 s).seenKeys
        else [])).flatten := by
  show (let maps := buildMaps pics;
    let r := List.foldl (reconcileStep resolveUrl now maps scope)
      ⟨[], [], [], [0]⟩ sources;
    ({ r with progress := r.progress ++ [100] } : RecResult)).deletes = _
  simp only [reconcile_fold_fields]
  simp

theorem walkOf_local_adds (resolveUrl : String → String → String) (now : Int)
    (m : List (Key × Picture)) (s : SourceIn) (fs : List FileInfo)
    (h : s.kind = SourceKind.localFolder fs) :
    (walkOf resolveUrl now m s).adds =
      fs.filterMap (fun f =>
        if jsGet m ⟨s.id, f.name⟩ = none then some (localData s.id f)
        else none) := by
  unfold walkOf
  rw [h]
  exact scanLocalGo_adds s.id fs.length m 0 fs

theorem walkOf_local_updates (resolveUrl : String → String → String)
    (now : Int) (m : List (Key × Picture)) (s : SourceIn) (fs : List FileInfo)
    (h : s.kind = SourceKind.localFolder fs) :
    (walkOf resolveUrl now m s).updates =
      fs.filterMap (fun f =>
        match jsGet m ⟨s.id, f.name⟩ with
        | some e =>
          if fingerprintOk (some e) f then none
          else some ((localData s.id f).withId e.id)
        | none => none) := by
  unfold walkOf
  rw [h]
  exact scanLocalGo_updates s.id fs.length m 0 fs

theorem walkOf_local_seen (resolveUrl : String → String → String) (now : Int)
    (m : List (Key × Picture)) (s : SourceIn) (fs : List FileInfo)
    (h : s.kind = SourceKind.localFolder fs) :
    (walkOf resolveUrl now m s).seenKeys =
      fs.map (fun f => (⟨s.id, f.name⟩ : Key)) := by
  unfold walkOf
  rw [h]
  exact scanLocalGo_seen s.id fs.length m 0 fs

/-- Origin of an emitted add in an all-local pass. -/
theorem reconcile_adds_provenance (resolveUrl : String → String → String)
    (now : Int) (sources : List SourceIn) (pics : List Picture)
    (scope : List Nat)
    (hlocal : ∀ s ∈ sources, ∃ fs, s.kind = SourceKind.localFolder fs)
    (d : PictureData)
    (hd : d ∈ (reconcile resolveUrl now sources pics scope).adds) :
    ∃ s ∈ sources, ∃ fs, s.kind = SourceKind.localFolder fs ∧ s.id ≠ 0 ∧
      ∃ f ∈ fs, jsGet (buildMaps pics).1 ⟨s.id, f.name⟩ = none ∧
        d = localData s.id f := by
  rw [reconcile_adds_eq] at hd
  obtain ⟨chunk, hchunk, hdmem⟩ := List.mem_flatten.mp hd
  obtain ⟨s, hs, rfl⟩ := List.mem_map.mp hchunk
  by_cases hz : s.id = 0
  · rw [if_pos hz] at hdmem
    simp at hdmem
  · rw [if_neg hz] at hdmem
    obtain ⟨fs, hkind⟩ := hlocal s hs
    rw [walkOf_local_adds _ _ _ _ _ hkind] at hdmem
    obtain ⟨f, hf, heq⟩ := List.mem_filterMap.mp hdmem
    by_cases hget : jsGet (buildMaps pics).1 ⟨s.id, f.name⟩ = none
    · rw [if_pos hget, Option.some.injEq] at heq
      exact ⟨s, hs, fs, hkind, hz, f, hf, hget, heq.symm⟩
    · rw [if_neg hget] at heq
      exact absurd heq (by simp)

/-- Origin of an emitted update in an all-local pass. -/
theorem reconcile_updates_provenance (resolveUrl : String → String → String)
    (now : Int) (sources : List SourceIn) (pics : List Picture)
    (scope : List Nat)
    (hlocal : ∀ s ∈ sources, ∃ fs, s.kind = SourceKind.localFolder fs)
    (u : Picture)
    (hu : u ∈ (reconcile resolveUrl now sources pics scope).updates) :
    ∃ s ∈ sources, ∃ fs, s.kind = SourceKind.localFolder fs ∧ s.id ≠ 0 ∧
      ∃ f ∈ fs, ∃ e, jsGet (buildMaps pics).1 ⟨s.id, f.name⟩ = some e ∧
        fingerprintOk (some e) f = false ∧
        u = (localData s.id f).withId e.id := by
  rw [reconcile_updates_eq] at hu
  obtain ⟨chunk, hchunk, humem⟩ := List.mem_flatten.mp hu
  obtain ⟨s, hs, rfl⟩ := List.mem_map.mp hchunk
  by_cases hz : s.id = 0
  · rw [if_pos hz] at humem
    simp at humem
  · rw [if_neg hz] at humem
    obtain ⟨fs, hkind⟩ := hlocal s hs
    rw [walkOf_local_updates _ _ _ _ _ hkind] at humem
    obtain ⟨f, hf, heq⟩ := List.mem_filterMap.mp humem
    cases hget : jsGet (buildMaps pics).1 ⟨s.id, f.name⟩ with
    | none =>
      rw [hget] at heq
      exact absurd heq (by simp)
    | some e =>
      rw [hget] at heq
      dsimp only at heq
      by_cases hfp : fingerprintOk (some e) f
      · rw [if_pos hfp] at heq
        exact absurd heq (by simp)
      · rw [if_neg hfp, Option.some.injEq] at heq
        exact ⟨s, hs, fs, hkind, hz, f, hf, e, hget,
          Bool.not_eq_true _ ▸ hfp, heq.symm⟩

theorem reconcile_adds_intro (resolveUrl : String → String → String)
    (now : Int) (sources : List SourceIn) (pics : List Picture)
    (scope : List Nat) (s : SourceIn) (fs : List FileInfo) (f : FileInfo)
    (hs : s ∈ sources) (hkind : s.kind = SourceKind.localFolder fs)
    (hz : s.id ≠ 0) (hf : f ∈ fs)
    (hget : jsGet (buildMaps pics).1 ⟨s.id, f.name⟩ = none) :
    localData s.id f ∈ (reconcile resolveUrl now sources pics scope).adds := by
  rw [reconcile_adds_eq]
  refine List.mem_flatten.mpr ⟨_, List.mem_map.mpr ⟨s, hs, rfl⟩, ?_⟩
  rw [if_neg hz, walkOf_local_adds _ _ _ _ _ hkind]
  exact List.mem_filterMap.mpr ⟨f, hf, by rw [if_pos hget]⟩

theorem reconcile_updates_intro (resolveUrl : String → String → String)
    (now : Int) (sources : List SourceIn) (pics : List Picture)
    (scope : List Nat) (s : SourceIn) (fs : List FileInfo) (f : FileInfo)
    (e : Picture) (hs : s ∈ sources)
    (hkind : s.kind = SourceKind.localFolder fs) (hz : s.id ≠ 0) (hf : f ∈ fs)
    (hget : jsGet (buildMaps pics).1 ⟨s.id, f.name⟩ = some e)
    (hfp : fingerprintOk (some e) f = false) :
    (localData s.id f).withId e.id ∈
      (reconcile resolveUrl now sources pics scope).updates := by
  rw [reconcile_updates_eq]
  refine List.mem_flatten.mpr ⟨_, List.mem_map.mpr ⟨s, hs, rfl⟩, ?_⟩
  rw [if_neg hz, walkOf_local_updates _ _ _ _ _ hkind]
  refine List.mem_filterMap.mpr ⟨f, hf, ?_⟩
  rw [hget]
  dsimp only
  rw [hfp]
  simp

theorem reconcile_deletes_intro (resolveUrl : String → String → String)
    (now : Int) (sources : List SourceIn) (pics : List Picture)
    (scope : List Nat) (hkeys : (pics.map keyOfPic).Nodup) (s : SourceIn)
    (hs : s ∈ sources) (hz : s.id ≠ 0) (hscope : s.id ∈ scope) (q : Picture)
    (hq : q ∈ pics) (hqs : q.sourceId = s.id)
    (hunseen : keyOfPic q ∉
      (walkOf resolveUrl now (buildMaps pics).1 s).seenKeys) :
    q.id ∈ (reconcile resolveUrl now sources pics scope).deletes := by
  rw [reconcile_deletes_eq]
  refine List.mem_flatten.mpr ⟨_, List.mem_map.mpr ⟨s, hs, rfl⟩, ?_⟩
  rw [if_neg hz, if_pos hscope]
  unfold sourceDeletes
  rw [buildMaps_snd_eq pics hkeys s.id hz]
  refine List.mem_map.mpr ⟨(keyOfPic q, q), ?_, rfl⟩
  refine List.mem_filter.mpr ⟨?_, by simpa using hunseen⟩
  exact List.mem_map.mpr ⟨q, List.mem_filter.mpr ⟨hq, by simp [hqs]⟩, rfl⟩

theorem reconcile_deletes_elim (resolveUrl : String → String → String)
    (now : Int) (sources : List SourceIn) (pics : List Picture)
    (scope : List Nat) (hkeys : (pics.map keyOfPic).Nodup) (x : Nat)
    (hx : x ∈ (reconcile resolveUrl now sources pics scope).deletes) :
    ∃ s ∈ sources, s.id ≠ 0 ∧ s.id ∈ scope ∧ ∃ w ∈ pics,
      w.sourceId = s.id ∧ w.id = x ∧
      keyOfPic w ∉ (walkOf resolveUrl now (buildMaps pics).1 s).seenKeys := by
  rw [reconcile_deletes_eq] at hx
  obtain ⟨chunk, hchunk, hmem⟩ := List.mem_flatten.mp hx
  obtain ⟨s, hs, rfl⟩ := List.mem_map.mp hchunk
  by_cases hz : s.id = 0
  · rw [if_pos hz] at hmem
    simp at hmem
  · rw [if_neg hz] at hmem
    by_cases hscope : s.id ∈ scope
    · rw [if_pos hscope] at hmem
      unfold sourceDeletes at hmem
      rw [buildMaps_snd_eq pics hkeys s.id hz] at hmem
      obtain ⟨e, he, hid⟩ := List.mem_map.mp hmem
      have hef := List.mem_filter.mp he
      obtain ⟨w, hw, rfl⟩ := List.mem_map.mp hef.1
      have hw2 := List.mem_filter.mp hw
      exact ⟨s, hs, hz, hscope, w, hw2.1, by simpa using hw2.2, hid,
        by simpa using hef.2⟩
    · rw [if_neg hscope] at hmem
      simp at hmem

/-- Every emitted update carries the id, key and source of the inventory
record it targets. -/
theorem reconcile_update_target (resolveUrl : String → String → String)
    (now : Int) (sources : List SourceIn) (pics : List Picture)
    (scope : List Nat)
    (hlocal : ∀ s ∈ sources, ∃ fs, s.kind = SourceKind.localFolder fs)
    (hkeys : (pics.map keyOfPic).Nodup) (u : Picture)
    (hu : u ∈ (reconcile resolveUrl now sources pics scope).updates) :
    ∃ e ∈ pics, e.sourceId ≠ 0 ∧ u.id = e.id ∧ keyOfPic u = keyOfPic e ∧
      u.sourceId = e.sourceId := by
  obtain ⟨s, hs, fs, hkind, hz, f, hf, e, hget, hfp, rfl⟩ :=
    reconcile_updates_provenance resolveUrl now sources pics scope hlocal u hu
  obtain ⟨he, hez, hekey⟩ := (jsGet_buildMaps_some pics hkeys _ e).mp hget
  have hsid : e.sourceId = s.id := congrArg Key.sourceId hekey
  refine ⟨e, he, hez, rfl, ?_, ?_⟩
  · rw [keyOfPic_withId, keyOfData_localData, hekey]
  · exact hsid.symm

/-- With unique inventory ids, unique source ids and per-source unique file
names, an id determines the emitted update. -/
theorem reconcile_update_unique (resolveUrl : String → String → String)
    (now : Int) (sources : List SourceIn) (pics : List Picture)
    (scope : List Nat)
    (hlocal : ∀ s ∈ sources, ∃ fs, s.kind = SourceKind.localFolder fs)
    (hids : (pics.map Picture.id).Nodup)
    (hkeys : (pics.map keyOfPic).Nodup)
    (hsrc : (sources.map SourceIn.id).Nodup)
    (hnames : ∀ s ∈ sources, ∀ fs, s.kind = SourceKind.localFolder fs →
      (fs.map FileInfo.name).Nodup)
    (u v : Picture)
    (hu : u ∈ (reconcile resolveUrl now sources pics scope).updates)
    (hv : v ∈ (reconcile resolveUrl now sources pics scope).updates)
    (hid : u.id = v.id) : u = v := by
  obtain ⟨s, hs, fs, hkind, hz, f, hf, e, hget, hfp, rfl⟩ :=
    reconcile_updates_provenance resolveUrl now sources pics scope hlocal u hu
  obtain ⟨s', hs', fs', hkind', hz', f', hf', e', hget', hfp', rfl⟩ :=
    reconcile_updates_provenance resolveUrl now sources pics scope hlocal v hv
  obtain ⟨he, hez, hekey⟩ := (jsGet_buildMaps_some pics hkeys _ e).mp hget
  obtain ⟨he', hez', hekey'⟩ := (jsGet_buildMaps_some pics hkeys _ e').mp hget'
  have hee : e = e' := List.inj_on_of_nodup_map hids he he' hid
  subst hee
  have hkk : (⟨s.id, f.name⟩ : Key) = ⟨s'.id, f'.name⟩ := by
    rw [← hekey, ← hekey']
  have hsid : s.id = s'.id := congrArg Key.sourceId hkk
  have hname : f.name = f'.name := congrArg Key.ident hkk
  have hss : s = s' := List.inj_on_of_nodup_map hsrc hs hs' hsid
  subst hss
  have hfs : fs = fs' := SourceKind.localFolder.inj (hkind ▸ hkind')
  subst hfs
  have hff : f = f' :=
    List.inj_on_of_nodup_map (hnames s hs fs hkind) hf hf' hname
  subst hff
  rfl

/-- The keys of the adds emitted by an all-local pass are pairwise
distinct (unique names within a source, unique source ids across
sources). -/
theorem reconcile_adds_keys_nodup (resolveUrl : String → String → String)
    (now : Int) (sources : List SourceIn) (pics : List Picture)
    (scope : List Nat)
    (hlocal : ∀ s ∈ sources, ∃ fs, s.kind = SourceKind.localFolder fs)
    (hsrc : (sources.map SourceIn.id).Nodup)
    (hnames : ∀ s ∈ sources, ∀ fs, s.kind = SourceKind.localFolder fs →
      (fs.map FileInfo.name).Nodup) :
    (((reconcile resolveUrl now sources pics scope).adds).map
      keyOfData).Nodup := by
  rw [reconcile_adds_eq]
  have hrw : ((sources.map (fun s => if s.id = 0 then []
      else (walkOf resolveUrl now (buildMaps pics).1 s).adds)).flatten).map
        keyOfData =
      (sources.map (fun s => if s.id = 0 then []
        else ((walkOf resolveUrl now (buildMaps pics).1 s).adds).map
          keyOfData)).flatten := by
    rw [List.map_flatten, List.map_map]
    congr 1
    apply List.map_congr_left
    intro s _
    by_cases hz : s.id = 0 <;> simp [Function.comp, hz]
  rw [hrw, List.nodup_flatten]
  have hel : ∀ s ∈ sources, ∀ k ∈ (if s.id = 0 then []
      else ((walkOf resolveUrl now (buildMaps pics).1 s).adds).map keyOfData),
      k.sourceId = s.id := by
    intro s hs k hk
    by_cases hz : s.id = 0
    · rw [if_pos hz] at hk
      simp at hk
    · rw [if_neg hz] at hk
      obtain ⟨fs, hkind⟩ := hlocal s hs
      rw [walkOf_local_adds _ _ _ _ _ hkind] at hk
      obtain ⟨d, hd, rfl⟩ := List.mem_map.mp hk
      obtain ⟨f, hf, heq⟩ := List.mem_filterMap.mp hd
      by_cases hg : jsGet (buildMaps pics).1 ⟨s.id, f.name⟩ = none
      · rw [if_pos hg, Option.some.injEq] at heq
        rw [← heq]
        rfl
      · rw [if_neg hg] at heq
        exact absurd heq (by simp)
  constructor
  · intro l hl
    obtain ⟨s, hs, rfl⟩ := List.mem_map.mp hl
    by_cases hz : s.id = 0
    · simp [hz]
    · rw [if_neg hz]
      obtain ⟨fs, hkind⟩ := hlocal s hs
      rw [walkOf_local_adds _ _ _ _ _ hkind]
      refine List.Nodup.sublist
        (map_filterMap_sublist fs _ keyOfData
          (fun f => (⟨s.id, f.name⟩ : Key)) ?_) ?_
      · intro a b h
        by_cases hg : jsGet (buildMaps pics).1 ⟨s.id, a.name⟩ = none
        · rw [if_pos hg, Option.some.injEq] at h
          rw [← h]
          rfl
        · rw [if_neg hg] at h
          exact absurd h (by simp)
      · rw [show (fun f => (⟨s.id, f.name⟩ : Key)) =
            (fun n => (⟨s.id, n⟩ : Key)) ∘ FileInfo.name from rfl,
          ← List.map_map]
        refine (List.nodup_map_iff ?_).mpr (hnames s hs fs hkind)
        intro a b h
        simpa using congrArg Key.ident h
  · refine List.pairwise_map.mpr ?_
    have hne : List.Pairwise (fun s s' : SourceIn => s.id ≠ s'.id) sources :=
      List.pairwise_map.mp hsrc
    refine hne.imp_of_mem ?_
    intro s s' hs hs' hid
    intro k hk1 hk2
    exact hid ((hel s hs k hk1) ▸ hel s' hs' k hk2)

/-- The record `bulkPut` leaves at a survivor's primary key: the emitted
update targeting its id, else the survivor itself. -/
def putResult (updates : List Picture) (q : Picture) : Picture :=
  match updates.find? (fun u => u.id = q.id) with
  | some u => u
  | none => q

theorem applyChangeset_eq (inventory : List Picture) (r : RecResult)
    (freshIds : List Nat) :
    applyChangeset inventory r freshIds =
      (inventory.filter (fun p => decide (p.id ∉ r.deletes))).map
        (putResult r.updates) ++
      List.zipWith PictureData.withId r.adds freshIds := rfl

/-- Decomposition of a record of the applied changeset:
survivor (possibly replaced by `bulkPut`) or fresh `bulkAdd` row. -/
theorem mem_applyChangeset {inventory : List Picture} {r : RecResult}
    {freshIds : List Nat} {p : Picture}
    (hp : p ∈ applyChangeset inventory r freshIds) :
    (∃ q ∈ inventory, q.id ∉ r.deletes ∧ p = putResult r.updates q) ∨
    ∃ d ∈ r.adds, ∃ fid ∈ freshIds, p = d.withId fid := by
  rw [applyChangeset_eq] at hp
  rcases List.mem_append.mp hp with h | h
  · obtain ⟨q, hq, rfl⟩ := List.mem_map.mp h
    have hq2 := List.mem_filter.mp hq
    exact Or.inl ⟨q, hq2.1, by simpa using hq2.2, rfl⟩
  · obtain ⟨d, hd, fid, hfid, rfl⟩ := of_mem_zipWith h
    exact Or.inr ⟨d, hd, fid, hfid, rfl⟩

theorem applyChangeset_mem_untouched {inventory : List Picture}
    {r : RecResult} {freshIds : List Nat} (q : Picture) (hq : q ∈ inventory)
    (hdel : q.id ∉ r.deletes)
    (hupd : r.updates.find? (fun u => u.id = q.id) = none) :
    q ∈ applyChangeset inventory r freshIds := by
  simp only [applyChangeset]
  refine List.mem_append.mpr (Or.inl ?_)
  refine List.mem_map.mpr
    ⟨q, List.mem_filter.mpr ⟨hq, by simpa using hdel⟩, ?_⟩
  rw [hupd]

theorem applyChangeset_mem_update {inventory : List Picture} {r : RecResult}
    {freshIds : List Nat} (q u : Picture) (hq : q ∈ inventory)
    (hdel : q.id ∉ r.deletes)
    (hupd : r.updates.find? (fun u => u.id = q.id) = some u) :
    u ∈ applyChangeset inventory r freshIds := by
  simp only [applyChangeset]
  refine List.mem_append.mpr (Or.inl ?_)
  refine List.mem_map.mpr
    ⟨q, List.mem_filter.mpr ⟨hq, by simpa using hdel⟩, ?_⟩
  rw [hupd]

theorem applyChangeset_mem_add {inventory : List Picture} {r : RecResult}
    {freshIds : List Nat} (hlen : freshIds.length = r.adds.length)
    (d : PictureData) (hd : d ∈ r.adds) :
    ∃ fid, d.withId fid ∈ applyChangeset inventory r freshIds := by
  obtain ⟨fid, _, hmem⟩ :=
    mem_zipWith_left PictureData.withId r.adds freshIds hlen.symm d hd
  refine ⟨fid, ?_⟩
  simp only [applyChangeset]
  exact List.mem_append.mpr (Or.inr hmem)

/-- Applying the changeset of an all-local pass keeps record keys pairwise
distinct: a `bulkPut` replacement carries its target's key, and `bulkAdd`
rows get fresh keys from sources whose lookup missed. -/
theorem applyChangeset_keys_nodup (resolveUrl : String → String → String)
    (now : Int) (sources : List SourceIn) (pics : List Picture)
    (scope : List Nat) (freshIds : List Nat)
    (hlocal : ∀ s ∈ sources, ∃ fs, s.kind = SourceKind.localFolder fs)
    (hids : (pics.map Picture.id).Nodup)
    (hkeys : (pics.map keyOfPic).Nodup)
    (hsrc : (sources.map SourceIn.id).Nodup)
    (hnames : ∀ s ∈ sources, ∀ fs, s.kind = SourceKind.localFolder fs →
      (fs.map FileInfo.name).Nodup)
    (hflen : freshIds.length =
      (reconcile resolveUrl now sources pics scope).adds.length) :
    ((applyChangeset pics (reconcile resolveUrl now sources pics scope)
      freshIds).map keyOfPic).Nodup := by
  rw [applyChangeset_eq]
  have hAUkeys : ((pics.filter (fun p => decide (p.id ∉
      (reconcile resolveUrl now sources pics scope).deletes))).map
      (putResult (reconcile resolveUrl now sources pics
        scope).updates)).map keyOfPic =
      (pics.filter (fun p => decide (p.id ∉
        (reconcile resolveUrl now sources pics scope).deletes))).map
        keyOfPic := by
    rw [List.map_map]
    apply List.map_congr_left
    intro q hq
    have hqp : q ∈ pics := (List.mem_filter.mp hq).1
    show keyOfPic (putResult _ q) = keyOfPic q
    unfold putResult
    cases hfind : (reconcile resolveUrl now sources pics
        scope).updates.find? (fun u => u.id = q.id) with
    | none => rfl
    | some u =>
      dsimp only
      have hu := List.mem_of_find?_eq_some hfind
      have hid : u.id = q.id := by simpa using List.find?_some hfind
      obtain ⟨e, he, hez, huid, hukey, husrc⟩ :=
        reconcile_update_target resolveUrl now sources pics scope hlocal
          hkeys u hu
      have heq2 : e = q :=
        List.inj_on_of_nodup_map hids he hqp (by rw [← huid, hid])
      rw [hukey, heq2]
  have hzipkeys : ((List.zipWith PictureData.withId
      (reconcile resolveUrl now sources pics scope).adds freshIds).map
        keyOfPic) =
      ((reconcile resolveUrl now sources pics scope).adds).map keyOfData :=
    map_zipWith_left PictureData.withId keyOfPic keyOfData keyOfPic_withId
      _ freshIds hflen.symm
  rw [List.map_append, hAUkeys, hzipkeys, List.nodup_append]
  refine ⟨((List.filter_sublist pics).map keyOfPic).nodup hkeys,
    reconcile_adds_keys_nodup resolveUrl now sources pics scope hlocal hsrc
      hnames, ?_⟩
  intro k hk1 hk2
  obtain ⟨q, hq, rfl⟩ := List.mem_map.mp hk1
  obtain ⟨d, hd, hkd⟩ := List.mem_map.mp hk2
  obtain ⟨s, hs, fs, hkind, hz, f, hf, hget, rfl⟩ :=
    reconcile_adds_provenance resolveUrl now sources pics scope hlocal d hd
  have hkq : keyOfPic q = ⟨s.id, f.name⟩ := by
    rw [← hkd, keyOfData_localData]
  have hqz : q.sourceId ≠ 0 := by
    have : q.sourceId = s.id := congrArg Key.sourceId hkq
    rw [this]
    exact hz
  exact (jsGet_buildMaps_none pics hkeys _).mp hget q
    (List.mem_filter.mp hq).1 hqz hkq

/-- After applying the changeset of an all-local pass, every scanned file's
composite key resolves to a record carrying the file's (modified, size)
fingerprint, so the next walk takes the fast path everywhere. -/
theorem applyChangeset_lookup_matches (resolveUrl : String → String → String)
    (now : Int) (sources : List SourceIn) (pics : List Picture)
    (scope : List Nat) (freshIds : List Nat)
    (hlocal : ∀ s ∈ sources, ∃ fs, s.kind = SourceKind.localFolder fs)
    (hids : (pics.map Picture.id).Nodup)
    (hkeys : (pics.map keyOfPic).Nodup)
    (hsrc : (sources.map SourceIn.id).Nodup)
    (hnames : ∀ s ∈ sources, ∀ fs, s.kind = SourceKind.localFolder fs →
      (fs.map FileInfo.name).Nodup)
    (hflen : freshIds.length =
      (reconcile resolveUrl now sources pics scope).adds.length)
    (s : SourceIn) (hs : s ∈ sources) (hz : s.id ≠ 0) (fs : List FileInfo)
    (hkind : s.kind = SourceKind.localFolder fs) (f : FileInfo)
    (hf : f ∈ fs) :
    ∃ p, jsGet (buildMaps (applyChangeset pics
        (reconcile resolveUrl now sources pics scope) freshIds)).1
        ⟨s.id, f.name⟩ = some p ∧
      p.modified = f.lastModified ∧ p.size = some f.size := by
  have hI2keys := applyChangeset_keys_nodup resolveUrl now sources pics scope
    freshIds hlocal hids hkeys hsrc hnames hflen
  cases hget : jsGet (buildMaps pics).1 ⟨s.id, f.name⟩ with
  | none =>
    have hd := reconcile_adds_intro resolveUrl now sources pics scope s fs f
      hs hkind hz hf hget
    obtain ⟨fid, hmem⟩ := applyChangeset_mem_add hflen _ hd
    refine ⟨(localData s.id f).withId fid, ?_, rfl, rfl⟩
    refine (jsGet_buildMaps_some _ hI2keys _ _).mpr ⟨hmem, hz, ?_⟩
    rw [keyOfPic_withId, keyOfData_localData]
  | some e =>
    obtain ⟨he, hez, hekey⟩ := (jsGet_buildMaps_some pics hkeys _ e).mp hget
    have hesid : e.sourceId = s.id := congrArg Key.sourceId hekey
    have hdel : e.id ∉ (reconcile resolveUrl now sources pics
        scope).deletes := by
      intro hdel
      obtain ⟨s', hs', hz', hscope', w, hw, hwsid, hwid, hwunseen⟩ :=
        reconcile_deletes_elim resolveUrl now sources pics scope hkeys e.id
          hdel
      have hwe : w = e := List.inj_on_of_nodup_map hids hw he hwid
      subst hwe
      have hss : s' = s := List.inj_on_of_nodup_map hsrc hs' hs
        (by rw [← hwsid, hesid])
      subst hss
      refine hwunseen ?_
      rw [walkOf_local_seen _ _ _ _ _ hkind, hekey]
      exact List.mem_map.mpr ⟨f, hf, rfl⟩
    by_cases hfp : fingerprintOk (some e) f
    · have hupd : (reconcile resolveUrl now sources pics
          scope).updates.find? (fun u => u.id = e.id) = none := by
        rw [List.find?_eq_none]
        intro u hu hpu
        have huid : u.id = e.id := by simpa using hpu
        obtain ⟨s', hs', fs', hkind', hz', f', hf', e', hget', hfp', rfl⟩ :=
          reconcile_updates_provenance resolveUrl now sources pics scope
            hlocal u hu
        obtain ⟨he2', hez2', hekey2'⟩ :=
          (jsGet_buildMaps_some pics hkeys _ e').mp hget'
        have hee : e' = e := List.inj_on_of_nodup_map hids he2' he
          (by simpa [PictureData.withId] using huid)
        subst hee
        have hkk : (⟨s'.id, f'.name⟩ : Key) = ⟨s.id, f.name⟩ := by
          rw [← hekey2', hekey]
        have hss : s' = s := List.inj_on_of_nodup_map hsrc hs' hs
          (congrArg Key.sourceId hkk)
        subst hss
        have hfs : fs' = fs := SourceKind.localFolder.inj (hkind' ▸ hkind)
        subst hfs
        have hff : f' = f :=
          List.inj_on_of_nodup_map (hnames s' hs' fs' hkind') hf' hf
            (congrArg Key.ident hkk)
        subst hff
        rw [hfp'] at hfp
        exact absurd hfp (by simp)
      have hmem := @applyChangeset_mem_untouched pics
        (reconcile resolveUrl now sources pics scope) freshIds e he hdel hupd
      have hfpe : e.modified = f.lastModified ∧ e.size = some f.size := by
        simpa [fingerprintOk] using hfp
      exact ⟨e, (jsGet_buildMaps_some _ hI2keys _ _).mpr
        ⟨hmem, hez, hekey⟩, hfpe.1, hfpe.2⟩
    · have hfp' : fingerprintOk (some e) f = false := by
        simpa using hfp
      have hu := reconcile_updates_intro resolveUrl now sources pics scope
        s fs f e hs hkind hz hf hget hfp'
      have hupd : (reconcile resolveUrl now sources pics
          scope).updates.find? (fun u => u.id = e.id) =
          some ((localData s.id f).withId e.id) := by
        apply find?_eq_some_of_unique _ _ _ hu
        · simp [PictureData.withId]
        · intro v hv hpv
          refine reconcile_update_unique resolveUrl now sources pics scope
            hlocal hids hkeys hsrc hnames v _ hv hu ?_
          have : v.id = e.id := by simpa using hpv
          simpa [PictureData.withId] using this
      have hmem := @applyChangeset_mem_update pics
        (reconcile resolveUrl now sources pics scope) freshIds e _ he hdel
        hupd
      refine ⟨(localData s.id f).withId e.id, ?_, rfl, rfl⟩
      refine (jsGet_buildMaps_some _ hI2keys _ _).mpr ⟨hmem, hz, ?_⟩
      rw [keyOfPic_withId, keyOfData_localData]

/-- **C5, amended.**  For a pass over local-folder sources only, with
pairwise-distinct inventory ids and composite keys, pairwise-distinct source
ids, per-source pairwise-distinct file names, and one fresh id per emitted
add, running reconciliation again on the applied changeset yields empty
adds, updates and deletes — idempotence holds under these uniqueness
conditions (and fails without them, see the counterexample). -/
theorem reconcile_idempotent_local (resolveUrl : String → String → String)
    (now now' : Int) (sources : List SourceIn) (pics : List Picture)
    (scope : List Nat) (freshIds : List Nat)
    (hlocal : ∀ s ∈ sources, ∃ fs, s.kind = SourceKind.localFolder fs)
    (hids : (pics.map Picture.id).Nodup)
    (hkeys : (pics.map keyOfPic).Nodup)
    (hsrc : (sources.map SourceIn.id).Nodup)
    (hnames : ∀ s ∈ sources, ∀ fs, s.kind = SourceKind.localFolder fs →
      (fs.map FileInfo.name).Nodup)
    (hflen : freshIds.length =
      (reconcile resolveUrl now sources pics scope).adds.length) :
    (reconcile resolveUrl now' sources
      (applyChangeset pics (reconcile resolveUrl now sources pics scope)
        freshIds) scope).adds = [] ∧
    (reconcile resolveUrl now' sources
      (applyChangeset pics (reconcile resolveUrl now sources pics scope)
        freshIds) scope).updates = [] ∧
    (reconcile resolveUrl now' sources
      (applyChangeset pics (reconcile resolveUrl now sources pics scope)
        freshIds) scope).deletes = [] := by
  have hI2keys := applyChangeset_keys_nodup resolveUrl now sources pics scope
    freshIds hlocal hids hkeys hsrc hnames hflen
  refine ⟨?_, ?_, ?_⟩
  · rw [reconcile_adds_eq, List.flatten_eq_nil_iff]
    intro l hl
    obtain ⟨s, hs, rfl⟩ := List.mem_map.mp hl
    by_cases hz : s.id = 0
    · rw [if_pos hz]
    · rw [if_neg hz]
      obtain ⟨fs, hkind⟩ := hlocal s hs
      rw [walkOf_local_adds _ _ _ _ _ hkind, List.filterMap_eq_nil_iff]
      intro f hf
      obtain ⟨p, hp, _, _⟩ := applyChangeset_lookup_matches resolveUrl now
        sources pics scope freshIds hlocal hids hkeys hsrc hnames hflen s hs
        hz fs hkind f hf
      simp [hp]
  · rw [reconcile_updates_eq, List.flatten_eq_nil_iff]
    intro l hl
    obtain ⟨s, hs, rfl⟩ := List.mem_map.mp hl
    by_cases hz : s.id = 0
    · rw [if_pos hz]
    · rw [if_neg hz]
      obtain ⟨fs, hkind⟩ := hlocal s hs
      rw [walkOf_local_updates _ _ _ _ _ hkind, List.filterMap_eq_nil_iff]
      intro f hf
      obtain ⟨p, hp, hm, hsz⟩ := applyChangeset_lookup_matches resolveUrl now
        sources pics scope freshIds hlocal hids hkeys hsrc hnames hflen s hs
        hz fs hkind f hf
      rw [hp]
      dsimp only
      rw [show fingerprintOk (some p) f = true by
        simp [fingerprintOk, hm, hsz]]
      simp
  · rw [reconcile_deletes_eq, List.flatten_eq_nil_iff]
    intro l hl
    obtain ⟨s, hs, rfl⟩ := List.mem_map.mp hl
    by_cases hz : s.id = 0
    · rw [if_pos hz]
    · rw [if_neg hz]
      by_cases hscope : s.id ∈ scope
      · rw [if_pos hscope]
        obtain ⟨fs, hkind⟩ := hlocal s hs
        unfold sourceDeletes
        rw [buildMaps_snd_eq _ hI2keys s.id hz,
          walkOf_local_seen _ _ _ _ _ hkind]
        have hfilter : List.filter
            (fun e => decide (e.1 ∉ fs.map
              (fun f => (⟨s.id, f.name⟩ : Key))))
            (((applyChangeset pics
              (reconcile resolveUrl now sources pics scope)
              freshIds).filter (fun p => decide (p.sourceId = s.id))).map
                (fun p => (keyOfPic p, p))) = [] := by
          rw [List.filter_eq_nil_iff]
          intro entry hentry
          obtain ⟨p, hpmem, rfl⟩ := List.mem_map.mp hentry
          have hp2 := List.mem_filter.mp hpmem
          have hpsid : p.sourceId = s.id := by simpa using hp2.2
          simp only [decide_eq_true_eq, Decidable.not_not, not_not]
          show keyOfPic p ∈ fs.map (fun f => (⟨s.id, f.name⟩ : Key))
          rcases mem_applyChangeset hp2.1 with
            ⟨q, hq, hqdel, hqput⟩ | ⟨d, hd, fid, _, rfl⟩
          · unfold putResult at hqput
            cases hfind : (reconcile resolveUrl now sources pics
                scope).updates.find? (fun u => u.id = q.id) with
            | none =>
              rw [hfind] at hqput
              dsimp only at hqput
              subst hqput
              by_contra hunseen
              refine hqdel (reconcile_deletes_intro resolveUrl now sources
                pics scope hkeys s hs hz hscope p hq hpsid ?_)
              rw [walkOf_local_seen _ _ _ _ _ hkind]
              exact hunseen
            | some u =>
              rw [hfind] at hqput
              dsimp only at hqput
              subst hqput
              obtain ⟨s', hs', fs', hkind', hz', f', hf', e', hget', hfp',
                rfl⟩ := reconcile_updates_provenance resolveUrl now sources
                  pics scope hlocal p (List.mem_of_find?_eq_some hfind)
              have hsid' : s'.id = s.id := by
                simpa [PictureData.withId, localData] using hpsid
              have hss : s' = s := List.inj_on_of_nodup_map hsrc hs' hs hsid'
              subst hss
              have hfs : fs' = fs := SourceKind.localFolder.inj
                (hkind' ▸ hkind)
              subst hfs
              rw [keyOfPic_withId, keyOfData_localData]
              exact List.mem_map.mpr ⟨f', hf', rfl⟩
          · obtain ⟨s', hs', fs', hkind', hz', f', hf', hget', rfl⟩ :=
              reconcile_adds_provenance resolveUrl now sources pics scope
                hlocal d hd
            have hsid' : s'.id = s.id := by
              simpa [PictureData.withId, localData] using hpsid
            have hss : s' = s := List.inj_on_of_nodup_map hsrc hs' hs hsid'
            subst hss
            have hfs : fs' = fs := SourceKind.localFolder.inj (hkind' ▸ hkind)
            subst hfs
            rw [keyOfPic_withId, keyOfData_localData]
            exact List.mem_map.mpr ⟨f', hf', rfl⟩
        rw [hfilter]
        rfl
      · rw [if_neg hscope]

/-- **C5, amended, witness**: one local source with two distinctly named
files, an empty inventory and two fresh ids; the second pass is a no-op. -/
theorem reconcile_idempotent_local_witness :
    (reconcile (fun _ u => u) 7
      [⟨1, "S", SourceKind.localFolder
        [⟨"a.jpg", 5, 100, 10, 20, none⟩, ⟨"b.jpg", 6, 200, 30, 40, none⟩]⟩]
      (applyChangeset []
        (reconcile (fun _ u => u) 3
          [⟨1, "S", SourceKind.localFolder
            [⟨"a.jpg", 5, 100, 10, 20, none⟩,
              ⟨"b.jpg", 6, 200, 30, 40, none⟩]⟩]
          [] [1])
        [1, 2]) [1]).adds = [] ∧
    (reconcile (fun _ u => u) 7
      [⟨1, "S", SourceKind.localFolder
        [⟨"a.jpg", 5, 100, 10, 20, none⟩, ⟨"b.jpg", 6, 200, 30, 40, none⟩]⟩]
      (applyChangeset []
        (reconcile (fun _ u => u) 3
          [⟨1, "S", SourceKind.localFolder
            [⟨"a.jpg", 5, 100, 10, 20, none⟩,
              ⟨"b.jpg", 6, 200, 30, 40, none⟩]⟩]
          [] [1])
        [1, 2]) [1]).updates = [] ∧
    (reconcile (fun _ u => u) 7
      [⟨1, "S", SourceKind.localFolder
        [⟨"a.jpg", 5, 100, 10, 20, none⟩, ⟨"b.jpg", 6, 200, 30, 40, none⟩]⟩]
      (applyChangeset []
        (reconcile (fun _ u => u) 3
          [⟨1, "S", SourceKind.localFolder
            [⟨"a.jpg", 5, 100, 10, 20, none⟩,
              ⟨"b.jpg", 6, 200, 30, 40, none⟩]⟩]
          [] [1])
        [1, 2]) [1]).deletes = [] :=
  reconcile_idempotent_local (fun _ u => u) 3 7
    [⟨1, "S", SourceKind.localFolder
      [⟨"a.jpg", 5, 100, 10, 20, none⟩, ⟨"b.jpg", 6, 200, 30, 40, none⟩]⟩]
    [] [1] [1, 2]
    (by
      intro s hs
      rw [List.mem_singleton] at hs
      subst hs
      exact ⟨_, rfl⟩)
    (by decide) (by decide) (by decide)
    (by
      intro s hs fs hk
      rw [List.mem_singleton] at hs
      subst hs
      have h := SourceKind.localFolder.inj hk
      subst h
      decide)
    (by decide)

end PictureViewer
